import Mathlib

/-!
Verification of the radium-fs Store engine core against its specification.

The development shallowly embeds the TypeScript sources:
  * `canonicalStringify` (packages/core, canonical serializer),
  * `computeDataId` / path layout helpers (create-store),
  * the in-memory adapter (packages/memory),
  * the Store engine operations `ensure`, `send`, `has`, `remove`
    (create-store), in the configuration without a Locker, without an
    abort signal and without per-call callbacks (their default/absent
    values), and with `onInit`/`onCommand` handlers modelled as explicit
    filesystem transformers.

JavaScript values that can appear as inputs, cache keys and metadata are
modelled by the inductive `JsVal`; machine details that the claims do not
touch (fractional numbers, `mtime` time stamps) are modelled by integers /
omitted.  JSON.parse/JSON.stringify of a manifest is modelled as the
identity round-trip on a structured `Manifest` value stored in the file
entry.
-/

namespace RadiumFs

/-- JavaScript/JSON-like values.  `jundef` is `undefined`, `jnan`/`jinf`/
`jneginf` are the non-finite numbers, `jnum` models finite numbers
(restricted to integers, which is all the claims need). -/
inductive JsVal where
  | jundef
  | jnull
  | jnan
  | jinf
  | jneginf
  | jbool (b : Bool)
  | jnum (n : Int)
  | jstr (s : String)
  | jarr (elems : List JsVal)
  | jobj (fields : List (String × JsVal))

/-- Hex digit characters, as produced by JavaScript `toString(16)`. -/
def hexDigitChar (n : Nat) : Char :=
  "0123456789abcdef".toList.getD n '0'

/-- One character of JSON.stringify string escaping: `"` and `\` are
escaped, the named control escapes are used, other control characters
become `\u00XX`, and everything else is copied verbatim. -/
def escapeChar (c : Char) : List Char :=
  if c = '"' then ['\\', '"']
  else if c = '\\' then ['\\', '\\']
  else if c = '\x08' then ['\\', 'b']
  else if c = '\x0c' then ['\\', 'f']
  else if c = '\n' then ['\\', 'n']
  else if c = '\r' then ['\\', 'r']
  else if c = '\t' then ['\\', 't']
  else if c.toNat < 0x20 then
    ['\\', 'u', '0', '0', hexDigitChar (c.toNat / 16), hexDigitChar (c.toNat % 16)]
  else [c]

/-- JSON.stringify of a string value. -/
def jsonQuote (s : String) : String :=
  String.mk ('"' :: (s.toList.flatMap escapeChar ++ ['"']))

/-- UTF-16 code units of one character (1 unit for BMP, surrogate pair
for astral characters). -/
def utf16Char (c : Char) : List Nat :=
  let n := c.toNat
  if n < 0x10000 then [n]
  else [0xD800 + (n - 0x10000) / 0x400, 0xDC00 + (n - 0x10000) % 0x400]

/-- UTF-16 code-unit sequence of a string: this is the sequence that
JavaScript string comparison (and hence `Array.prototype.sort()` on
`Object.keys`) compares lexicographically. -/
def utf16Units (s : String) : List Nat :=
  s.toList.flatMap utf16Char

/-- Lexicographic `≤` on lists of naturals. -/
def natListLe : List Nat → List Nat → Bool
  | [], _ => true
  | _ :: _, [] => false
  | a :: as, b :: bs => if a < b then true else if b < a then false else natListLe as bs

/-- JavaScript default string order: lexicographic over UTF-16 code
units. -/
def cuLe (a b : String) : Bool := natListLe (utf16Units a) (utf16Units b)

/-- Unicode code-point sequence of a string. -/
def cpUnits (s : String) : List Nat := s.toList.map Char.toNat

/-- Lexicographic order over Unicode code points (the order the spec
text names). -/
def cpLe (a b : String) : Bool := natListLe (cpUnits a) (cpUnits b)

/-- Stable insertion into a list of (key, rendered) pairs ordered by `le`
on the keys. -/
def insertByKey (le : String → String → Bool) (x : String × String) :
    List (String × String) → List (String × String)
  | [] => [x]
  | y :: ys => if le x.1 y.1 then x :: y :: ys else y :: insertByKey le x ys

/-- Insertion sort of (key, rendered) pairs by `le` on the keys. -/
def sortByKey (le : String → String → Bool) (l : List (String × String)) :
    List (String × String) :=
  l.foldr (insertByKey le) []

/-- Render one object entry list: join `"key":value` pieces. -/
def renderPairs (l : List (String × String)) : String :=
  String.intercalate "," (l.map (fun kv => jsonQuote kv.1 ++ ":" ++ kv.2))

mutual

/-- `canonicalStringify` from packages/core/src/canonical.ts.
`null`/`undefined`, non-finite numbers and unrepresentable values render
as `null`; booleans, numbers and strings as in JSON; arrays preserve
order; objects are rendered with keys sorted by the JavaScript default
sort (lexicographic over UTF-16 code units) and entries whose value is
`undefined` omitted.  The source first sorts `Object.keys(obj)` and then
renders `obj[key]` for each key; since a JavaScript object holds each key
at most once and rendering one entry does not depend on the others, this
is embedded as rendering the entries first and then sorting the rendered
pairs by key. -/
def canonicalStringify : JsVal → String
  | .jundef => "null"
  | .jnull => "null"
  | .jnan => "null"
  | .jinf => "null"
  | .jneginf => "null"
  | .jbool b => if b then "true" else "false"
  | .jnum n => toString n
  | .jstr s => jsonQuote s
  | .jarr elems => "[" ++ String.intercalate "," (canonList elems) ++ "]"
  | .jobj fields => "\x7b" ++ renderPairs (sortByKey cuLe (canonFields fields)) ++ "\x7d"

/-- Canonical rendering of each array element, in order. -/
def canonList : List JsVal → List String
  | [] => []
  | v :: vs => canonicalStringify v :: canonList vs

/-- Canonical rendering of the object entries, skipping entries whose
value is `undefined` (`if (v === undefined) continue`). -/
def canonFields : List (String × JsVal) → List (String × String)
  | [] => []
  | (_, .jundef) :: rest => canonFields rest
  | (k, v) :: rest => (k, canonicalStringify v) :: canonFields rest

end

/-- The serializer the spec sentence describes, differing from the source
only in the key order: keys sorted in lexicographic Unicode code-point
order.  Used to compare the spec's wording with the implementation. -/
def canonicalStringifySpecOrder : JsVal → String
  | .jobj fields => "\x7b" ++ renderPairs (sortByKey cpLe (canonFields fields)) ++ "\x7d"
  | v => canonicalStringify v

example : canonicalStringify (.jobj [("b", .jnum 2), ("a", .jnum 1)]) = "\x7b\"a\":1,\"b\":2\x7d" := by decide
example : canonicalStringify (.jarr [.jnull, .jnum (-3), .jstr "x\"y"]) = "[null,-3,\"x\\\"y\"]" := by decide
example : canonicalStringify (.jobj [("a", .jobj [("z", .jnum 1), ("y", .jnum 2)])]) =
    "\x7b\"a\":\x7b\"y\":2,\"z\":1\x7d\x7d" := by decide
example : canonicalStringify (.jobj [("a", .jundef), ("b", .jbool true)]) = "\x7b\"b\":true\x7d" := by decide

/-! ### SHA-256

Modelled from the spec: the adapters delegate hashing to platform crypto
(Web Crypto / node:crypto), which is not part of this repository; the
spec fixes it as "SHA-256, lowercase hex, always 64 characters" over the
UTF-8 bytes of the hashed text.  The implementation below is standard
FIPS 180-4 SHA-256 over byte lists, with 32-bit words as naturals
reduced mod 2^32. -/

/-- UTF-8 bytes of one character. -/
def utf8Char (c : Char) : List Nat :=
  let n := c.toNat
  if n < 0x80 then [n]
  else if n < 0x800 then [0xC0 + n / 0x40, 0x80 + n % 0x40]
  else if n < 0x10000 then [0xE0 + n / 0x1000, 0x80 + (n / 0x40) % 0x40, 0x80 + n % 0x40]
  else [0xF0 + n / 0x40000, 0x80 + (n / 0x1000) % 0x40, 0x80 + (n / 0x40) % 0x40, 0x80 + n % 0x40]

/-- UTF-8 byte sequence of a string (what `TextEncoder().encode` yields). -/
def utf8Bytes (s : String) : List Nat := s.toList.flatMap utf8Char

/-- Truncate to a 32-bit word. -/
def w32 (n : Nat) : Nat := n % 4294967296

/-- 32-bit right rotation. -/
def rotr (n x : Nat) : Nat := w32 ((x >>> n) ||| (x <<< (32 - n)))

/-- SHA-256 round constants (FIPS 180-4, written in decimal). -/
def K256 : List Nat :=
  [1116352408, 1899447441, 3049323471, 3921009573, 961987163, 1508970993,
   2453635748, 2870763221, 3624381080, 310598401, 607225278, 1426881987,
   1925078388, 2162078206, 2614888103, 3248222580, 3835390401, 4022224774,
   264347078, 604807628, 770255983, 1249150122, 1555081692, 1996064986,
   2554220882, 2821834349, 2952996808, 3210313671, 3336571891, 3584528711,
   113926993, 338241895, 666307205, 773529912, 1294757372, 1396182291,
   1695183700, 1986661051, 2177026350, 2456956037, 2730485921, 2820302411,
   3259730800, 3345764771, 3516065817, 3600352804, 4094571909, 275423344,
   430227734, 506948616, 659060556, 883997877, 958139571, 1322822218,
   1537002063, 1747873779, 1955562222, 2024104815, 2227730452, 2361852424,
   2428436474, 2756734187, 3204031479, 3329325298]

/-- SHA-256 initial hash state (FIPS 180-4, written in decimal). -/
def H256 : List Nat :=
  [1779033703, 3144134277, 1013904242, 2773480762,
   1359893119, 2600822924, 528734635, 1541459225]

/-- Append the next message-schedule word. -/
def scheduleStep (ws : List Nat) : List Nat :=
  let l := ws.length
  let w15 := ws.getD (l - 15) 0
  let w2 := ws.getD (l - 2) 0
  let w16 := ws.getD (l - 16) 0
  let w7 := ws.getD (l - 7) 0
  let s0 := rotr 7 w15 ^^^ rotr 18 w15 ^^^ (w15 >>> 3)
  let s1 := rotr 17 w2 ^^^ rotr 19 w2 ^^^ (w2 >>> 10)
  ws ++ [w32 (w16 + s0 + w7 + s1)]

/-- Extend the 16 block words to the 64 schedule words. -/
def extendSchedule : Nat → List Nat → List Nat
  | 0, ws => ws
  | k + 1, ws => extendSchedule k (scheduleStep ws)

/-- One SHA-256 compression round on the 8-word working state. -/
def compressStep (st : List Nat) (kw : Nat × Nat) : List Nat :=
  match st with
  | [a, b, c, d, e, f, g, h] =>
    let s1 := rotr 6 e ^^^ rotr 11 e ^^^ rotr 25 e
    let ch := (e &&& f) ^^^ ((e ^^^ 0xffffffff) &&& g)
    let temp1 := w32 (h + s1 + ch + kw.1 + kw.2)
    let s0 := rotr 2 a ^^^ rotr 13 a ^^^ rotr 22 a
    let maj := (a &&& b) ^^^ (a &&& c) ^^^ (b &&& c)
    let temp2 := w32 (s0 + maj)
    [w32 (temp1 + temp2), a, b, c, w32 (d + temp1), e, f, g]
  | other => other

/-- Big-endian 32-bit words of a 64-byte block. -/
def wordsOfBlock : List Nat → List Nat
  | b0 :: b1 :: b2 :: b3 :: rest => (((b0 * 256 + b1) * 256 + b2) * 256 + b3) :: wordsOfBlock rest
  | _ => []

/-- Process one 64-byte block into the running hash state. -/
def processBlock (h : List Nat) (block : List Nat) : List Nat :=
  let ws := extendSchedule 48 (wordsOfBlock block)
  let st := (K256.zip ws).foldl compressStep h
  (h.zip st).map (fun p => w32 (p.1 + p.2))

/-- Split a padded message into 64-byte blocks (fuel-driven). -/
def splitBlocks : Nat → List Nat → List (List Nat)
  | 0, _ => []
  | _, [] => []
  | fuel + 1, l => l.take 64 :: splitBlocks fuel (l.drop 64)

/-- Big-endian 8-byte encoding of the bit length. -/
def lengthBytes (n : Nat) : List Nat :=
  [(n >>> 56) % 256, (n >>> 48) % 256, (n >>> 40) % 256, (n >>> 32) % 256,
   (n >>> 24) % 256, (n >>> 16) % 256, (n >>> 8) % 256, n % 256]

/-- SHA-256 padding: 0x80, zeros to 56 mod 64, 8-byte big-endian bit length. -/
def padMessage (msg : List Nat) : List Nat :=
  let len := msg.length
  let zeros := (64 - (len + 9) % 64) % 64
  msg ++ [0x80] ++ List.replicate zeros 0 ++ lengthBytes (len * 8)

/-- SHA-256 of a byte list, yielding the 32 digest bytes. -/
def sha256Bytes (msg : List Nat) : List Nat :=
  let padded := padMessage msg
  let hFinal := (splitBlocks padded.length padded).foldl processBlock H256
  hFinal.flatMap (fun w => [(w >>> 24) % 256, (w >>> 16) % 256, (w >>> 8) % 256, w % 256])

/-- Lowercase hex rendering of a byte list. -/
def toHex (bytes : List Nat) : String :=
  String.mk (bytes.flatMap (fun b => [hexDigitChar (b / 16), hexDigitChar (b % 16)]))

/-- `adapter.hash` of both reference adapters: lowercase-hex SHA-256 of
the UTF-8 bytes of a string. -/
def sha256hex (s : String) : String := toHex (sha256Bytes (utf8Bytes s))

example : sha256hex "" = "e3b0c44298fc1c149afbf4c8996fb92427ae41e4649b934ca495991b7852b855" := by decide
example : sha256hex "abc" = "ba7816bf8f01cfea414140de5dae2223b00361a396177a9cb410ff61f20015ad" := by decide

/-! ### Identity: dataId derivation (create-store.ts `computeDataId`) -/

/-- JavaScript nullish test (`x == null`): true for `null` and `undefined`. -/
def isNullish : JsVal → Bool
  | .jnull => true
  | .jundef => true
  | _ => false

/-- JavaScript nullish coalescing `a ?? b`. -/
def nullishOr (a b : JsVal) : JsVal := if isNullish a then b else a

/-- JavaScript truthiness of a value. -/
def jsTruthy : JsVal → Bool
  | .jundef => false
  | .jnull => false
  | .jnan => false
  | .jbool b => b
  | .jnum n => decide (n ≠ 0)
  | .jstr s => decide (s ≠ "")
  | _ => true

/-- `computeDataId` from create-store.ts: the hashed payload is
`cacheKeyFn(input)` when a cacheKey function is given (with no fallback on
its result), else `input`; the hashed text is
`kind + 0x00 + canonicalStringify(payload)`. -/
def computeDataId (kind : String) (input : JsVal)
    (cacheKeyFn : Option (JsVal → JsVal)) : String :=
  let payload := match cacheKeyFn with
    | some f => f input
    | none => input
  sha256hex (kind ++ "\x00" ++ canonicalStringify payload)

/-- The dataId `ensureInternal` uses for `(kind, input)`: the raw input is
first replaced by `input ?? \x7b\x7d` and `computeDataId` is applied to that
record. -/
def ensureDataId (kindName : String) (cacheKeyFn : Option (JsVal → JsVal))
    (input : JsVal) : String :=
  computeDataId kindName (nullishOr input (.jobj [])) cacheKeyFn

/-- The dataId formula exactly as claim C1 (and the spec) words it:
`SHA-256(utf8(kind) || 0x00 || utf8(canonical(cacheKey?.(I) ?? I ?? \x7b\x7d)))`,
falling back to the input when the cacheKey function returns a nullish
value. -/
def claimDataId (kindName : String) (cacheKeyFn : Option (JsVal → JsVal))
    (input : JsVal) : String :=
  let applied := match cacheKeyFn with
    | some f => f input
    | none => .jundef
  let payload := nullishOr applied (nullishOr input (.jobj []))
  sha256hex (kindName ++ "\x00" ++ canonicalStringify payload)

/-- Every byte the digest serializer emits is < 256. -/
theorem sha256Bytes_lt_256 (m : List Nat) : ∀ b ∈ sha256Bytes m, b < 256 := by
  intro b hb
  simp only [sha256Bytes, List.mem_flatMap] at hb
  obtain ⟨w, _, hw⟩ := hb
  simp only [List.mem_cons, List.not_mem_nil, or_false] at hw
  rcases hw with h | h | h | h <;> subst h <;> exact Nat.mod_lt _ (by norm_num)

/-- `compressStep` preserves the 8-word state length. -/
theorem compressStep_length (st : List Nat) (kw : Nat × Nat)
    (h : st.length = 8) : (compressStep st kw).length = 8 := by
  rcases st with _ | ⟨a, _ | ⟨b, _ | ⟨c, _ | ⟨d, _ | ⟨e, _ | ⟨f, _ | ⟨g, _ | ⟨hh, rest⟩⟩⟩⟩⟩⟩⟩⟩ <;>
    simp_all [compressStep]

/-- `processBlock` preserves the 8-word hash-state length. -/
theorem processBlock_length (h : List Nat) (block : List Nat)
    (hl : h.length = 8) : (processBlock h block).length = 8 := by
  have hfold : ∀ (l : List (Nat × Nat)) (st : List Nat), st.length = 8 →
      (l.foldl compressStep st).length = 8 := by
    intro l
    induction l with
    | nil => intro st hst; simpa using hst
    | cons x xs ih => intro st hst; exact ih _ (compressStep_length st x hst)
  simp [processBlock, List.length_zip, hl, hfold _ h hl]

/-- The digest always has 32 bytes. -/
theorem sha256Bytes_length (m : List Nat) : (sha256Bytes m).length = 32 := by
  have hfold : ∀ (bs : List (List Nat)) (st : List Nat), st.length = 8 →
      (bs.foldl processBlock st).length = 8 := by
    intro bs
    induction bs with
    | nil => intro st hst; simpa using hst
    | cons x xs ih => intro st hst; exact ih _ (processBlock_length st x hst)
  have hflat : ∀ l : List Nat,
      (l.flatMap (fun w => [(w >>> 24) % 256, (w >>> 16) % 256, (w >>> 8) % 256, w % 256])).length
        = 4 * l.length := by
    intro l
    induction l with
    | nil => rfl
    | cons w ws ih =>
        simp only [List.flatMap_cons, List.length_append, List.length_cons,
          List.length_nil, ih]
        omega
  have h8 := hfold (splitBlocks (padMessage m).length (padMessage m)) H256 (by decide)
  show (((splitBlocks (padMessage m).length (padMessage m)).foldl processBlock H256).flatMap
      (fun w => [(w >>> 24) % 256, (w >>> 16) % 256, (w >>> 8) % 256, w % 256])).length = 32
  rw [hflat, h8]

/-- A hex digit of a value < 16 is one of the sixteen hex characters. -/
theorem hexDigitChar_mem (n : Nat) (h : n < 16) :
    "0123456789abcdef".toList.contains (hexDigitChar n) = true := by
  interval_cases n <;> decide

/-- The characters of `toHex bytes` are the hex digits of each byte. -/
theorem toHex_toList (bytes : List Nat) :
    (toHex bytes).toList = bytes.flatMap (fun b => [hexDigitChar (b / 16), hexDigitChar (b % 16)]) :=
  rfl

/-- `toHex` of bytes < 256 yields twice as many characters, all lowercase
hex. -/
theorem toHex_spec (bytes : List Nat) (h : ∀ b ∈ bytes, b < 256) :
    (toHex bytes).length = 2 * bytes.length ∧
    (toHex bytes).toList.all (fun c => "0123456789abcdef".toList.contains c) = true := by
  induction bytes with
  | nil => exact ⟨rfl, rfl⟩
  | cons b bs ih =>
      have hb : b < 256 := h b (List.mem_cons_self ..)
      have ihs := ih (fun x hx => h x (List.mem_cons_of_mem _ hx))
      constructor
      · show ((toHex (b :: bs)).toList).length = 2 * (b :: bs).length
        have ihl : ((toHex bs).toList).length = 2 * bs.length := ihs.1
        rw [toHex_toList] at ihl ⊢
        simp only [List.flatMap_cons, List.length_append, List.length_cons,
          List.length_nil, ihl]
        omega
      · rw [toHex_toList] at ihs ⊢
        simp only [List.flatMap_cons, List.all_append, List.all_cons, List.all_nil,
          Bool.and_true, Bool.and_eq_true]
        exact ⟨⟨hexDigitChar_mem _ (by omega), hexDigitChar_mem _ (Nat.mod_lt _ (by norm_num))⟩,
          ihs.2⟩

/-- Every output of `sha256hex` is 64 lowercase hex characters. -/
theorem sha256hex_spec (s : String) :
    (sha256hex s).length = 64 ∧
    (sha256hex s).toList.all (fun c => "0123456789abcdef".toList.contains c) = true := by
  have h := toHex_spec (sha256Bytes (utf8Bytes s)) (sha256Bytes_lt_256 _)
  refine ⟨?_, h.2⟩
  have := h.1
  rw [sha256Bytes_length] at this
  exact this

/-- **C1, counterexample.**  The claim states that when `cacheKey` is
defined but returns `null`, the hashed payload falls back to the input.
With `kind = "k"`, `cacheKey = () => null` and input `\x7b a: 1 \x7d`, the
engine hashes `"k\x00null"` while the claimed formula hashes
`"k\x00\x7b\"a\":1\x7d"`; the resulting dataIds differ. -/
theorem c1_claim_false :
    ensureDataId "k" (some (fun _ => .jnull)) (.jobj [("a", .jnum 1)]) ≠
      claimDataId "k" (some (fun _ => .jnull)) (.jobj [("a", .jnum 1)]) := by
  decide

/-- **C1, amended.**  For every Kind name, cacheKey function and input,
the dataId used by ensure is deterministic and equals the 64-character
lowercase-hex SHA-256 digest of
`utf8(kind) || 0x00 || utf8(canonicalStringify(p))` where `p` is
`cacheKey(I ?? \x7b\x7d)` when `cacheKey` is defined — even when that call
returns `null`/`undefined`, with no fallback to the input — and `I ?? \x7b\x7d`
otherwise. -/
theorem c1_amended (kindName : String) (cacheKeyFn : Option (JsVal → JsVal))
    (input : JsVal) :
    ensureDataId kindName cacheKeyFn input =
      sha256hex (kindName ++ "\x00" ++ canonicalStringify
        (match cacheKeyFn with
         | some f => f (nullishOr input (.jobj []))
         | none => nullishOr input (.jobj []))) ∧
    (ensureDataId kindName cacheKeyFn input).length = 64 ∧
    (ensureDataId kindName cacheKeyFn input).toList.all
      (fun c => "0123456789abcdef".toList.contains c) = true := by
  have hform : ensureDataId kindName cacheKeyFn input =
      sha256hex (kindName ++ "\x00" ++ canonicalStringify
        (match cacheKeyFn with
         | some f => f (nullishOr input (.jobj []))
         | none => nullishOr input (.jobj []))) := by
    cases cacheKeyFn <;> rfl
  refine ⟨hform, ?_, ?_⟩ <;> rw [hform]
  · exact (sha256hex_spec _).1
  · exact (sha256hex_spec _).2

/-! ### Order lemmas for the canonical serializer -/

theorem natListLe_total : ∀ a b : List Nat, natListLe a b = true ∨ natListLe b a = true := by
  intro a
  induction a with
  | nil => intro b; left; rfl
  | cons x xs ih =>
      intro b
      cases b with
      | nil => right; rfl
      | cons y ys =>
          simp only [natListLe]
          rcases Nat.lt_trichotomy x y with h | h | h
          · left; simp [h]
          · subst h
            simpa [Nat.lt_irrefl] using ih ys
          · right; simp [h]

theorem natListLe_antisymm : ∀ a b : List Nat,
    natListLe a b = true → natListLe b a = true → a = b := by
  intro a
  induction a with
  | nil =>
      intro b h1 h2
      cases b with
      | nil => rfl
      | cons y ys => simp [natListLe] at h2
  | cons x xs ih =>
      intro b h1 h2
      cases b with
      | nil => simp [natListLe] at h1
      | cons y ys =>
          simp only [natListLe] at h1 h2
          rcases Nat.lt_trichotomy x y with h | h | h
          · rw [if_neg (Nat.lt_asymm h), if_pos h] at h2; exact absurd h2 (by simp)
          · subst h
            simp only [Nat.lt_irrefl, if_neg] at h1 h2
            rw [ih ys h1 h2]
          · rw [if_neg (Nat.lt_asymm h), if_pos h] at h1; exact absurd h1 (by simp)

theorem natListLe_trans : ∀ a b c : List Nat,
    natListLe a b = true → natListLe b c = true → natListLe a c = true := by
  intro a
  induction a with
  | nil => intro b c _ _; rfl
  | cons x xs ih =>
      intro b c h1 h2
      cases b with
      | nil => simp [natListLe] at h1
      | cons y ys =>
          cases c with
          | nil => simp [natListLe] at h2
          | cons z zs =>
              simp only [natListLe] at h1 h2 ⊢
              rcases Nat.lt_trichotomy x y with hxy | hxy | hxy
              · rcases Nat.lt_trichotomy y z with hyz | hyz | hyz
                · have hxz : x < z := Nat.lt_trans hxy hyz
                  simp [hxz]
                · subst hyz; simp [hxy]
                · rw [if_neg (Nat.lt_asymm hyz), if_pos hyz] at h2
                  exact absurd h2 (by simp)
              · subst hxy
                simp only [Nat.lt_irrefl, if_neg] at h1
                rcases Nat.lt_trichotomy x z with hyz | hyz | hyz
                · simp [hyz]
                · subst hyz
                  simp only [Nat.lt_irrefl, if_neg] at h2 ⊢
                  exact ih _ _ h1 h2
                · rw [if_neg (Nat.lt_asymm hyz), if_pos hyz] at h2
                  exact absurd h2 (by simp)
              · rw [if_neg (Nat.lt_asymm hxy), if_pos hxy] at h1
                exact absurd h1 (by simp)

/-! ### Injectivity of the UTF-16 code-unit encoding -/

/-- Characters are scalar values: never in the surrogate range. -/
theorem char_not_surrogate (c : Char) :
    c.toNat < 0xD800 ∨ (0xDFFF < c.toNat ∧ c.toNat < 0x110000) :=
  c.valid

theorem char_toNat_lt (c : Char) : c.toNat < 0x110000 := by
  rcases char_not_surrogate c with h | h
  · omega
  · exact h.2

theorem char_eq_of_toNat_eq {c d : Char} (h : c.toNat = d.toNat) : c = d := by
  have hc := Char.ofNat_toNat c
  have hd := Char.ofNat_toNat d
  rw [← hc, ← hd, h]

theorem utf16Char_cases (c : Char) :
    (c.toNat < 0x10000 ∧ utf16Char c = [c.toNat]) ∨
    (0x10000 ≤ c.toNat ∧ utf16Char c =
      [0xD800 + (c.toNat - 0x10000) / 0x400, 0xDC00 + (c.toNat - 0x10000) % 0x400]) := by
  by_cases h : c.toNat < 0x10000
  · exact Or.inl ⟨h, by simp [utf16Char, h]⟩
  · exact Or.inr ⟨Nat.le_of_not_lt h, by simp [utf16Char, h]⟩

/-- The UTF-16 code-unit stream is uniquely decodable. -/
theorem utf16_flatMap_injective : ∀ a b : List Char,
    a.flatMap utf16Char = b.flatMap utf16Char → a = b := by
  intro a
  induction a with
  | nil =>
      intro b h
      cases b with
      | nil => rfl
      | cons d ds =>
          exfalso
          rcases utf16Char_cases d with ⟨_, hd⟩ | ⟨_, hd⟩ <;>
            simp [hd, List.flatMap_cons] at h
  | cons c cs ih =>
      intro b h
      cases b with
      | nil =>
          exfalso
          rcases utf16Char_cases c with ⟨_, hc⟩ | ⟨_, hc⟩ <;>
            simp [hc, List.flatMap_cons] at h
      | cons d ds =>
          have hclt := char_toNat_lt c
          have hdlt := char_toNat_lt d
          rcases utf16Char_cases c with ⟨hc, hceq⟩ | ⟨hc, hceq⟩ <;>
            rcases utf16Char_cases d with ⟨hd, hdeq⟩ | ⟨hd, hdeq⟩ <;>
            simp only [List.flatMap_cons, hceq, hdeq, List.cons_append, List.nil_append,
              List.cons.injEq] at h
          · exact congrArg₂ _ (char_eq_of_toNat_eq h.1) (ih ds h.2)
          · exfalso
            rcases char_not_surrogate c with hs | hs <;> omega
          · exfalso
            rcases char_not_surrogate d with hs | hs <;> omega
          · have : c.toNat = d.toNat := by omega
            exact congrArg₂ _ (char_eq_of_toNat_eq this) (ih ds h.2.2)

theorem utf16Units_injective {a b : String} (h : utf16Units a = utf16Units b) : a = b := by
  have hl : a.toList = b.toList := utf16_flatMap_injective _ _ h
  cases a; cases b
  exact congrArg String.mk hl

theorem cuLe_total (a b : String) : cuLe a b = true ∨ cuLe b a = true :=
  natListLe_total _ _

theorem cuLe_antisymm {a b : String} (h1 : cuLe a b = true) (h2 : cuLe b a = true) :
    a = b :=
  utf16Units_injective (natListLe_antisymm _ _ h1 h2)

theorem cuLe_trans {a b c : String} (h1 : cuLe a b = true) (h2 : cuLe b c = true) :
    cuLe a c = true :=
  natListLe_trans _ _ _ h1 h2

/-! ### Insertion sort lemmas -/

theorem insertByKey_perm (le : String → String → Bool) (x : String × String)
    (l : List (String × String)) : (insertByKey le x l).Perm (x :: l) := by
  induction l with
  | nil => exact List.Perm.refl _
  | cons y ys ih =>
      simp only [insertByKey]
      by_cases h : le x.1 y.1 = true
      · rw [if_pos h]
      · rw [if_neg h]
        exact (ih.cons y).trans (List.Perm.swap x y ys)

theorem sortByKey_perm (le : String → String → Bool) (l : List (String × String)) :
    (sortByKey le l).Perm l := by
  induction l with
  | nil => exact List.Perm.refl _
  | cons a t ih =>
      exact (insertByKey_perm le a (sortByKey le t)).trans (ih.cons a)

/-- Entry lists sorted by key in code-unit order. -/
def KeySorted : List (String × String) → Prop :=
  List.Pairwise (fun x y => cuLe x.1 y.1 = true)

theorem insertByKey_sorted (x : String × String) (l : List (String × String))
    (hs : KeySorted l) : KeySorted (insertByKey cuLe x l) := by
  induction l with
  | nil => exact List.pairwise_singleton _ _
  | cons y ys ih =>
      simp only [insertByKey]
      rcases List.pairwise_cons.mp hs with ⟨hy, hys⟩
      by_cases h : cuLe x.1 y.1 = true
      · rw [if_pos h]
        refine List.pairwise_cons.mpr ⟨?_, hs⟩
        intro z hz
        rcases List.mem_cons.mp hz with rfl | hz
        · exact h
        · exact cuLe_trans h (hy z hz)
      · rw [if_neg h]
        have hyx : cuLe y.1 x.1 = true := (cuLe_total x.1 y.1).resolve_left h
        refine List.pairwise_cons.mpr ⟨?_, ih hys⟩
        intro z hz
        have hz2 := (insertByKey_perm cuLe x ys).mem_iff.mp hz
        rcases List.mem_cons.mp hz2 with rfl | hz2
        · exact hyx
        · exact hy z hz2

theorem sortByKey_sorted (l : List (String × String)) : KeySorted (sortByKey cuLe l) := by
  induction l with
  | nil => exact List.Pairwise.nil
  | cons a t ih => exact insertByKey_sorted a _ ih

/-- Two key-sorted entry lists that are permutations of each other and have
pairwise-distinct keys are equal. -/
theorem keySorted_perm_eq : ∀ l₁ l₂ : List (String × String), l₁.Perm l₂ →
    KeySorted l₁ → KeySorted l₂ → (l₁.map Prod.fst).Nodup → l₁ = l₂ := by
  intro l₁
  induction l₁ with
  | nil =>
      intro l₂ hp _ _ _
      exact (hp.symm.eq_nil).symm
  | cons a t₁ ih =>
      intro l₂ hp hs1 hs2 hnd
      cases l₂ with
      | nil => exact absurd hp.eq_nil (by simp)
      | cons b t₂ =>
          rcases List.pairwise_cons.mp hs1 with ⟨ha, hs1t⟩
          rcases List.pairwise_cons.mp hs2 with ⟨hb, hs2t⟩
          have hndc := List.nodup_cons.mp (show (a.1 :: t₁.map Prod.fst).Nodup by
            simpa only [List.map_cons] using hnd)
          by_cases hab : a = b
          · subst hab
            have ht : t₁.Perm t₂ := hp.cons_inv
            rw [ih t₂ ht hs1t hs2t hndc.2]
          · exfalso
            have hamem : a ∈ b :: t₂ := hp.mem_iff.mp (List.mem_cons_self ..)
            have hbmem : b ∈ a :: t₁ := hp.symm.mem_iff.mp (List.mem_cons_self ..)
            rcases List.mem_cons.mp hamem with h | hat2
            · exact hab h
            rcases List.mem_cons.mp hbmem with h | hbt1
            · exact hab h.symm
            have hkey : a.1 = b.1 := cuLe_antisymm (ha b hbt1) (hb a hat2)
            exact hndc.1 (hkey ▸ List.mem_map_of_mem Prod.fst hbt1)

/-! ### Canonical serializer: object-entry lemmas -/

theorem canonFields_eq_filterMap (l : List (String × JsVal)) :
    canonFields l = l.filterMap (fun kv =>
      match kv with
      | (_, .jundef) => none
      | (k, v) => some (k, canonicalStringify v)) := by
  induction l with
  | nil => rfl
  | cons kv rest ih =>
      rcases kv with ⟨k, v⟩
      cases v <;> simp [canonFields, ih, List.filterMap_cons]

theorem canonFields_keys_sublist (l : List (String × JsVal)) :
    ((canonFields l).map Prod.fst).Sublist (l.map Prod.fst) := by
  induction l with
  | nil => simp [canonFields]
  | cons kv rest ih =>
      rcases kv with ⟨k, v⟩
      cases v
      case jundef => simpa [canonFields] using ih.cons k
      all_goals simpa [canonFields] using ih.cons₂ k

/-- **C4, counterexample.**  With the two keys U+FFFD (one UTF-16 code
unit, 0xFFFD) and U+1F600 (surrogate pair, leading unit 0xD83D), the
JavaScript default sort orders U+1F600 before U+FFFD (code-unit order)
while lexicographic Unicode code-point order — which the claim names —
orders U+FFFD first, so the emitted key order differs from the claimed
one. -/
theorem c4_claim_false :
    canonicalStringify (.jobj [(String.mk [Char.ofNat 0xFFFD], .jnum 1),
      (String.mk [Char.ofNat 0x1F600], .jnum 2)]) ≠
    canonicalStringifySpecOrder (.jobj [(String.mk [Char.ofNat 0xFFFD], .jnum 1),
      (String.mk [Char.ofNat 0x1F600], .jnum 2)]) := by
  decide

/-- **C4, amended.**  `canonicalStringify` writes each object with keys
sorted in lexicographic UTF-16 code-unit order (the JavaScript default
sort; this agrees with code-point order for keys within the Basic
Multilingual Plane), omitting entries whose value is `undefined`, applied
recursively; consequently, for any two objects with the same key-value
pairs in different insertion order the outputs are byte-for-byte
equal. -/
theorem c4_amended :
    (∀ l₁ l₂ : List (String × JsVal), (l₁.map Prod.fst).Nodup → l₁.Perm l₂ →
        canonicalStringify (.jobj l₁) = canonicalStringify (.jobj l₂)) ∧
    (∀ (k : String) (l : List (String × JsVal)),
        canonicalStringify (.jobj ((k, .jundef) :: l)) = canonicalStringify (.jobj l)) := by
  constructor
  · intro l₁ l₂ hnd hp
    have hcfp : (canonFields l₁).Perm (canonFields l₂) := by
      rw [canonFields_eq_filterMap, canonFields_eq_filterMap]
      exact hp.filterMap _
    have hnd1 : ((canonFields l₁).map Prod.fst).Nodup :=
      hnd.sublist (canonFields_keys_sublist l₁)
    have hperm : (sortByKey cuLe (canonFields l₁)).Perm (sortByKey cuLe (canonFields l₂)) :=
      (sortByKey_perm _ _).trans (hcfp.trans (sortByKey_perm _ _).symm)
    have hnds : ((sortByKey cuLe (canonFields l₁)).map Prod.fst).Nodup :=
      (((sortByKey_perm cuLe (canonFields l₁)).map Prod.fst).nodup_iff).mpr hnd1
    show "\x7b" ++ renderPairs (sortByKey cuLe (canonFields l₁)) ++ "\x7d" =
      "\x7b" ++ renderPairs (sortByKey cuLe (canonFields l₂)) ++ "\x7d"
    rw [keySorted_perm_eq _ _ hperm (sortByKey_sorted _) (sortByKey_sorted _) hnds]
  · intro k l
    rfl

/-- **C4, witness.**  Applying the amended theorem at two concrete
two-entry objects differing only in insertion order. -/
theorem c4_witness :
    canonicalStringify (.jobj [("b", .jnum 2), ("a", .jnum 1)]) =
      canonicalStringify (.jobj [("a", .jnum 1), ("b", .jnum 2)]) :=
  c4_amended.1 _ _ (by decide) (List.Perm.swap _ _ _)

/-! ### Path strings

The engine and the in-memory adapter manipulate absolute `/`-separated
paths with JavaScript string operations.  `split`/`join` on the single
character `/` are embedded character-wise. -/

/-- JavaScript `str.split('/')` at the character level. -/
def splitCh : List Char → List (List Char)
  | [] => [[]]
  | c :: rest =>
      if c = '/' then [] :: splitCh rest
      else
        match splitCh rest with
        | g :: gs => (c :: g) :: gs
        | [] => [[c]]

/-- JavaScript `parts.join('/')` at the character level. -/
def joinCh : List (List Char) → List Char
  | [] => []
  | [g] => g
  | g :: g2 :: gs => g ++ '/' :: joinCh (g2 :: gs)

/-- JavaScript `p.split('/')`. -/
def jsSplit (s : String) : List String := (splitCh s.toList).map String.mk

/-- JavaScript `parts.join('/')`. -/
def jsJoin (parts : List String) : String := String.mk (joinCh (parts.map String.toList))

/-- JavaScript `s.startsWith(pre)`. -/
def jsStartsWith (s pre : String) : Bool := pre.toList.isPrefixOf s.toList

/-- The absolute path with the given components: `"/" + parts.join('/')`. -/
def mkPath (parts : List String) : String := "/" ++ jsJoin parts

/-- A well-formed path component: nonempty, no `/`, not `.` or `..`. -/
def WfComp (s : String) : Prop :=
  s ≠ "" ∧ '/' ∉ s.toList ∧ s ≠ "." ∧ s ≠ ".."

instance (s : String) : Decidable (WfComp s) := by unfold WfComp; infer_instance

/-- All components well formed. -/
def WfParts (l : List String) : Prop := ∀ s ∈ l, WfComp s

instance (l : List String) : Decidable (WfParts l) := by unfold WfParts; infer_instance

theorem splitCh_ne_nil : ∀ l : List Char, splitCh l ≠ [] := by
  intro l
  cases l with
  | nil => simp [splitCh]
  | cons c rest =>
      simp only [splitCh]
      split
      · simp
      · split <;> simp_all

theorem splitCh_no_slash (g : List Char) (h : '/' ∉ g) : splitCh g = [g] := by
  induction g with
  | nil => rfl
  | cons c rest ih =>
      have hc : c ≠ '/' := fun hc => h (hc ▸ List.mem_cons_self ..)
      have hr : '/' ∉ rest := fun hr => h (List.mem_cons_of_mem _ hr)
      simp only [splitCh, if_neg hc, ih hr]

theorem splitCh_append_slash (g t : List Char) (h : '/' ∉ g) :
    splitCh (g ++ '/' :: t) = g :: splitCh t := by
  induction g with
  | nil => simp [splitCh]
  | cons c rest ih =>
      have hc : c ≠ '/' := fun hc => h (hc ▸ List.mem_cons_self ..)
      have hr : '/' ∉ rest := fun hr => h (List.mem_cons_of_mem _ hr)
      have harr := ih hr
      show (if c = '/' then [] :: splitCh (rest ++ '/' :: t)
            else match splitCh (rest ++ '/' :: t) with
              | g :: gs => (c :: g) :: gs
              | [] => [[c]]) = (c :: rest) :: splitCh t
      rw [if_neg hc, harr]

theorem splitCh_joinCh : ∀ gs : List (List Char), gs ≠ [] → (∀ g ∈ gs, '/' ∉ g) →
    splitCh (joinCh gs) = gs := by
  intro gs
  induction gs with
  | nil => intro h; exact absurd rfl h
  | cons g rest ih =>
      intro _ hns
      cases rest with
      | nil => exact splitCh_no_slash g (hns g (List.mem_cons_self ..))
      | cons g2 gs2 =>
          show splitCh (g ++ '/' :: joinCh (g2 :: gs2)) = _
          rw [splitCh_append_slash _ _ (hns g (List.mem_cons_self ..)),
            ih (by simp) (fun x hx => hns x (List.mem_cons_of_mem _ hx))]

theorem joinCh_append : ∀ gs hs : List (List Char), gs ≠ [] → hs ≠ [] →
    joinCh (gs ++ hs) = joinCh gs ++ '/' :: joinCh hs := by
  intro gs
  induction gs with
  | nil => intro hs h; exact absurd rfl h
  | cons g rest ih =>
      intro hs _ hhs
      cases rest with
      | nil =>
          cases hs with
          | nil => exact absurd rfl hhs
          | cons h1 hs1 => rfl
      | cons g2 gs2 =>
          show joinCh (g :: (g2 :: gs2 ++ hs)) = (g ++ '/' :: joinCh (g2 :: gs2)) ++ '/' :: joinCh hs
          have : joinCh (g :: (g2 :: gs2 ++ hs)) = g ++ '/' :: joinCh (g2 :: gs2 ++ hs) := rfl
          rw [this, ih hs (by simp) hhs]
          simp

theorem toList_append (a b : String) : (a ++ b).toList = a.toList ++ b.toList := by
  cases a; cases b; rfl

theorem toList_mk (l : List Char) : (String.mk l).toList = l := rfl

theorem mk_toList (s : String) : String.mk s.toList = s := by cases s; rfl

theorem toList_jsJoin (parts : List String) :
    (jsJoin parts).toList = joinCh (parts.map String.toList) := rfl

theorem toList_mkPath (parts : List String) :
    (mkPath parts).toList = '/' :: joinCh (parts.map String.toList) := by
  show ("/" ++ jsJoin parts).toList = _
  rw [toList_append, toList_jsJoin]
  rfl

theorem map_mk_toList (l : List String) : l.map (fun s => String.mk s.toList) = l := by
  induction l with
  | nil => rfl
  | cons s rest ih => simp [mk_toList, ih]

theorem jsSplit_mkPath (parts : List String) (hne : parts ≠ [])
    (hns : ∀ s ∈ parts, '/' ∉ s.toList) : jsSplit (mkPath parts) = "" :: parts := by
  show ((splitCh (mkPath parts).toList).map String.mk) = _
  rw [toList_mkPath]
  have hsp : splitCh ('/' :: joinCh (parts.map String.toList)) =
      [] :: splitCh (joinCh (parts.map String.toList)) := by
    simp [splitCh]
  rw [hsp, splitCh_joinCh _ (by simpa using hne) (by
    intro g hg
    rcases List.mem_map.mp hg with ⟨s, hs, rfl⟩
    exact hns s hs)]
  simp only [List.map_cons, List.map_map, Function.comp_def]
  rw [map_mk_toList]

theorem jsSplit_root : jsSplit (mkPath []) = ["", ""] := by decide

theorem mkPath_injective {ps qs : List String}
    (hps : ∀ s ∈ ps, s ≠ "" ∧ '/' ∉ s.toList)
    (hqs : ∀ s ∈ qs, s ≠ "" ∧ '/' ∉ s.toList)
    (h : mkPath ps = mkPath qs) : ps = qs := by
  have hsplit := congrArg jsSplit h
  cases ps with
  | nil =>
      cases qs with
      | nil => rfl
      | cons b bs =>
          rw [jsSplit_root, jsSplit_mkPath _ (by simp) (fun s hs => (hqs s hs).2)] at hsplit
          have hb := (List.cons.inj hsplit).2
          have : b = "" := by
            have := (List.cons.inj hb).1
            exact this.symm
          exact absurd this (hqs b (List.mem_cons_self ..)).1
  | cons a as =>
      cases qs with
      | nil =>
          rw [jsSplit_root, jsSplit_mkPath _ (by simp) (fun s hs => (hps s hs).2)] at hsplit
          have hb := (List.cons.inj hsplit).2
          have : a = "" := (List.cons.inj hb).1
          exact absurd this (hps a (List.mem_cons_self ..)).1
      | cons b bs =>
          rw [jsSplit_mkPath _ (by simp) (fun s hs => (hps s hs).2),
            jsSplit_mkPath _ (by simp) (fun s hs => (hqs s hs).2)] at hsplit
          exact (List.cons.inj hsplit).2

theorem toList_injective {a b : String} (h : a.toList = b.toList) : a = b := by
  cases a; cases b; exact congrArg String.mk h

/-- Two slash-free heads followed by a slash align. -/
theorem slash_head_prefix : ∀ P Q A B : List Char, '/' ∉ P → '/' ∉ Q →
    (P ++ '/' :: A) <+: (Q ++ '/' :: B) → P = Q ∧ A <+: B := by
  intro P
  induction P with
  | nil =>
      intro Q A B _ hQ h
      cases Q with
      | nil => exact ⟨rfl, by simpa using ((List.cons_prefix_cons).mp h).2⟩
      | cons d Q2 =>
          have hd : d ≠ '/' := fun hh => hQ (hh ▸ List.mem_cons_self ..)
          have := ((List.cons_prefix_cons).mp (by simpa using h)).1
          exact absurd this.symm hd
  | cons c P2 ih =>
      intro Q A B hP hQ h
      have hc : c ≠ '/' := fun hh => hP (hh ▸ List.mem_cons_self ..)
      cases Q with
      | nil =>
          have := ((List.cons_prefix_cons).mp (by simpa using h)).1
          exact absurd this hc
      | cons d Q2 =>
          have h2 := (List.cons_prefix_cons).mp (by simpa using h)
          obtain ⟨heq, hAB⟩ := ih Q2 A B (fun hh => hP (List.mem_cons_of_mem _ hh))
            (fun hh => hQ (List.mem_cons_of_mem _ hh)) h2.2
          exact ⟨by rw [h2.1, heq], hAB⟩

/-- If `joinCh Ps ++ "/"` is a prefix of `joinCh Qs` then `Ps` is a proper
prefix of `Qs` (groups nonempty and slash-free). -/
theorem joinCh_slash_prefix_parts : ∀ Ps Qs : List (List Char), Ps ≠ [] →
    (∀ g ∈ Ps, g ≠ [] ∧ '/' ∉ g) → (∀ g ∈ Qs, g ≠ [] ∧ '/' ∉ g) →
    (joinCh Ps ++ ['/']) <+: joinCh Qs →
    Ps.length < Qs.length ∧ Qs.take Ps.length = Ps := by
  intro Ps
  induction Ps with
  | nil => intro Qs h; exact absurd rfl h
  | cons P Ps2 ih =>
      intro Qs _ hPs hQs h
      cases Qs with
      | nil =>
          exfalso
          have hnil : joinCh ([] : List (List Char)) = [] := rfl
          rw [hnil] at h
          have := List.prefix_nil.mp h
          simp at this
      | cons Q Qs2 =>
          cases Qs2 with
          | nil =>
              exfalso
              have hmem : '/' ∈ Q := by
                refine h.sublist.mem ?_
                exact List.mem_append_right _ (List.mem_singleton.mpr rfl)
              exact (hQs Q (List.mem_cons_self ..)).2 hmem
          | cons Q2 Qs3 =>
              have hjq : joinCh (Q :: Q2 :: Qs3) = Q ++ '/' :: joinCh (Q2 :: Qs3) := rfl
              cases Ps2 with
              | nil =>
                  have hjp : (joinCh [P] ++ ['/'] : List Char) = P ++ '/' :: [] := rfl
                  rw [hjp, hjq] at h
                  obtain ⟨hPQ, _⟩ := slash_head_prefix P Q [] _
                    (hPs P (List.mem_cons_self ..)).2 (hQs Q (List.mem_cons_self ..)).2 h
                  subst hPQ
                  exact ⟨by simp, by simp⟩
              | cons P2 Ps3 =>
                  have hjp : joinCh (P :: P2 :: Ps3) ++ ['/'] =
                      P ++ '/' :: (joinCh (P2 :: Ps3) ++ ['/']) := by
                    show (P ++ '/' :: joinCh (P2 :: Ps3)) ++ ['/'] = _
                    simp
                  rw [hjp, hjq] at h
                  obtain ⟨hPQ, hrest⟩ := slash_head_prefix P Q _ _
                    (hPs P (List.mem_cons_self ..)).2 (hQs Q (List.mem_cons_self ..)).2 h
                  subst hPQ
                  obtain ⟨hlen, htake⟩ := ih (Q2 :: Qs3) (by simp)
                    (fun g hg => hPs g (List.mem_cons_of_mem _ hg))
                    (fun g hg => hQs g (List.mem_cons_of_mem _ hg)) hrest
                  refine ⟨by simpa using Nat.succ_lt_succ hlen, ?_⟩
                  rw [show (P :: P2 :: Ps3).length = (P2 :: Ps3).length + 1 from rfl,
                    List.take_succ_cons, htake]

/-- `s.startsWith(p ++ "/")` forces the component lists to be nested. -/
theorem startsWith_mkPath_parts {ps qs : List String}
    (hps : ∀ s ∈ ps, s ≠ "" ∧ '/' ∉ s.toList)
    (hqs : ∀ s ∈ qs, s ≠ "" ∧ '/' ∉ s.toList)
    (hpne : ps ≠ [])
    (h : jsStartsWith (mkPath qs) (mkPath ps ++ "/") = true) :
    ps.length < qs.length ∧ qs.take ps.length = ps := by
  have hpre : ((mkPath ps ++ "/").toList) <+: (mkPath qs).toList :=
    List.isPrefixOf_iff_prefix.mp h
  rw [toList_append, toList_mkPath, toList_mkPath] at hpre
  have hpre2 : (joinCh (ps.map String.toList) ++ ['/']) <+:
      joinCh (qs.map String.toList) := by
    simpa using hpre
  have hgl : ∀ g ∈ ps.map String.toList, g ≠ [] ∧ '/' ∉ g := by
    intro g hg
    rcases List.mem_map.mp hg with ⟨s, hs, rfl⟩
    refine ⟨fun hnil => (hps s hs).1 (by cases s with | mk d => simpa using congrArg String.mk hnil), (hps s hs).2⟩
  have hgr : ∀ g ∈ qs.map String.toList, g ≠ [] ∧ '/' ∉ g := by
    intro g hg
    rcases List.mem_map.mp hg with ⟨s, hs, rfl⟩
    refine ⟨fun hnil => (hqs s hs).1 (by cases s with | mk d => simpa using congrArg String.mk hnil), (hqs s hs).2⟩
  obtain ⟨hlen, htake⟩ := joinCh_slash_prefix_parts (ps.map String.toList)
    (qs.map String.toList) (by simpa using hpne) hgl hgr (by simpa using hpre2)
  constructor
  · simpa using hlen
  · have : (qs.take ps.length).map String.toList = ps.map String.toList := by
      rw [List.map_take]
      simpa using htake
    have hinj : Function.Injective String.toList := fun a b hab => toList_injective hab
    exact List.map_injective_iff.mpr hinj this

/-- A string always starts with its own prefix. -/
theorem jsStartsWith_append (p q : String) : jsStartsWith (p ++ q) p = true := by
  unfold jsStartsWith
  rw [toList_append]
  exact List.isPrefixOf_iff_prefix.mpr (List.prefix_append _ _)

/-! ### normalizePath (packages/memory) and joinPath (create-store) -/

/-- One step of the in-memory adapter's `normalizePath` resolution loop:
skip empty and `.` components, pop on `..`, push anything else. -/
def normStep (acc : List String) (part : String) : List String :=
  if part = "" ∨ part = "." then acc
  else if part = ".." then acc.dropLast
  else acc ++ [part]

/-- `normalizePath` from packages/memory/src/index.ts: split on `/`,
resolve the components, rejoin under a leading slash. -/
def normalizePath (p : String) : String :=
  mkPath ((jsSplit p).foldl normStep [])

theorem foldl_normStep_wf (xs : List String) (acc : List String) (h : WfParts xs) :
    xs.foldl normStep acc = acc ++ xs := by
  induction xs generalizing acc with
  | nil => simp
  | cons x rest ih =>
      obtain ⟨hne, _, hdot, hdd⟩ := h x (List.mem_cons_self ..)
      show List.foldl normStep (normStep acc x) rest = acc ++ x :: rest
      rw [show normStep acc x = acc ++ [x] by simp [normStep, hne, hdot, hdd],
        ih _ (fun s hs => h s (List.mem_cons_of_mem _ hs))]
      simp

theorem foldl_normStep_skip_empty (xs : List String) (acc : List String) :
    ("" :: xs).foldl normStep acc = xs.foldl normStep acc := by
  show List.foldl normStep (normStep acc "") xs = _
  rw [show normStep acc "" = acc by simp [normStep]]

theorem foldl_normStep_dotdot (n : Nat) (acc : List String) :
    (List.replicate n "..").foldl normStep acc = acc.take (acc.length - n) := by
  induction n generalizing acc with
  | zero => simp
  | succ m ih =>
      show List.foldl normStep (normStep acc "..") (List.replicate m "..") = _
      rw [show normStep acc ".." = acc.dropLast by simp [normStep], ih,
        List.dropLast_eq_take, List.take_take]
      congr 1
      simp only [List.length_take]
      omega

theorem normalizePath_mkPath (ps : List String) (h : WfParts ps) :
    normalizePath (mkPath ps) = mkPath ps := by
  unfold normalizePath
  cases hp : ps with
  | nil => rw [jsSplit_root]; rfl
  | cons a as =>
      subst hp
      rw [jsSplit_mkPath _ (by simp) (fun s hs => (h s hs).2.1),
        foldl_normStep_skip_empty, foldl_normStep_wf _ _ h]
      rfl

/-- Collapse runs of `/` (the `replace(/\/+/g, '/')` in joinPath); the
flag records whether the previous character was a slash. -/
def collapseAux : Bool → List Char → List Char
  | _, [] => []
  | prevSlash, c :: rest =>
      if c = '/' then
        if prevSlash then collapseAux true rest
        else '/' :: collapseAux true rest
      else c :: collapseAux false rest

/-- `joinPath` from create-store.ts:
`parts.filter(Boolean).join('/').replace(/\/+/g, '/')`. -/
def joinPath (parts : List String) : String :=
  String.mk (collapseAux false (joinCh ((parts.filter (fun s => s != "")).map String.toList)))

theorem collapseAux_group : ∀ (g : List Char) (b : Bool) (rest : List Char),
    '/' ∉ g → g ≠ [] → collapseAux b (g ++ rest) = g ++ collapseAux false rest := by
  intro g
  induction g with
  | nil => intro b rest _ hne; exact absurd rfl hne
  | cons c g2 ih =>
      intro b rest hns _
      have hc : c ≠ '/' := fun hh => hns (hh ▸ List.mem_cons_self ..)
      show collapseAux b (c :: (g2 ++ rest)) = c :: (g2 ++ collapseAux false rest)
      rw [show collapseAux b (c :: (g2 ++ rest)) = c :: collapseAux false (g2 ++ rest) by
        simp [collapseAux, hc]]
      cases g2 with
      | nil => rfl
      | cons d g3 =>
          rw [ih false rest (fun hh => hns (List.mem_cons_of_mem _ hh)) (by simp)]

theorem collapseAux_true_joinCh : ∀ gs : List (List Char),
    (∀ g ∈ gs, g ≠ [] ∧ '/' ∉ g) → collapseAux true (joinCh gs) = joinCh gs := by
  intro gs
  induction gs with
  | nil => intro _; rfl
  | cons g rest ih =>
      intro hw
      obtain ⟨hne, hns⟩ := hw g (List.mem_cons_self ..)
      cases rest with
      | nil =>
          show collapseAux true (joinCh [g]) = joinCh [g]
          have h1 : joinCh [g] = g := rfl
          rw [h1]
          have h2 := collapseAux_group g true [] hns hne
          simpa [collapseAux] using h2
      | cons g2 gs2 =>
          show collapseAux true (g ++ '/' :: joinCh (g2 :: gs2)) = g ++ '/' :: joinCh (g2 :: gs2)
          rw [collapseAux_group g true _ hns hne]
          congr 1
          show (if ('/' : Char) = '/' then
              if false then collapseAux true (joinCh (g2 :: gs2))
              else '/' :: collapseAux true (joinCh (g2 :: gs2))
            else '/' :: collapseAux false (joinCh (g2 :: gs2))) = _
          rw [if_pos rfl]
          simp only [Bool.false_eq_true, if_false]
          rw [ih (fun x hx => hw x (List.mem_cons_of_mem _ hx))]

theorem mkPath_ne_empty (ps : List String) : mkPath ps ≠ "" := by
  intro h
  have := congrArg String.toList h
  rw [toList_mkPath] at this
  simp at this

/-- `joinPath` of an absolute base path and well-formed components appends
the components. -/
theorem joinPath_mkPath (ps rest : List String)
    (hps : ∀ s ∈ ps, s ≠ "" ∧ '/' ∉ s.toList)
    (hrest : ∀ s ∈ rest, s ≠ "" ∧ '/' ∉ s.toList) :
    joinPath (mkPath ps :: rest) = mkPath (ps ++ rest) := by
  have hfilter : (mkPath ps :: rest).filter (fun s => s != "") = mkPath ps :: rest := by
    rw [List.filter_cons_of_pos (by simp [mkPath_ne_empty ps])]
    congr 1
    exact List.filter_eq_self.mpr (fun s hs => by simp [(hrest s hs).1])
  unfold joinPath
  rw [hfilter]
  have hgr : ∀ g ∈ rest.map String.toList, g ≠ [] ∧ '/' ∉ g := by
    intro g hg
    rcases List.mem_map.mp hg with ⟨s, hs, rfl⟩
    exact ⟨fun hnil => (hrest s hs).1 (by cases s with | mk d => simpa using congrArg String.mk hnil),
      (hrest s hs).2⟩
  have hgp : ∀ g ∈ ps.map String.toList, g ≠ [] ∧ '/' ∉ g := by
    intro g hg
    rcases List.mem_map.mp hg with ⟨s, hs, rfl⟩
    exact ⟨fun hnil => (hps s hs).1 (by cases s with | mk d => simpa using congrArg String.mk hnil),
      (hps s hs).2⟩
  cases hrr : rest with
  | nil =>
      subst hrr
      show String.mk (collapseAux false (joinCh [(mkPath ps).toList])) = mkPath (ps ++ [])
      rw [show joinCh [(mkPath ps).toList] = (mkPath ps).toList from rfl, toList_mkPath]
      cases hpp : ps with
      | nil => rfl
      | cons a as =>
          subst hpp
          rw [show collapseAux false ('/' :: joinCh ((a :: as).map String.toList)) =
              '/' :: collapseAux true (joinCh ((a :: as).map String.toList)) by
            simp [collapseAux]]
          rw [collapseAux_true_joinCh _ hgp]
          rw [List.append_nil]
          exact (congrArg String.mk (toList_mkPath (a :: as))).symm.trans (mk_toList _)
  | cons r1 rs =>
      subst hrr
      show String.mk (collapseAux false (joinCh ((mkPath ps).toList :: (r1 :: rs).map String.toList))) = _
      rw [show (mkPath ps).toList :: (r1 :: rs).map String.toList =
          [(mkPath ps).toList] ++ (r1 :: rs).map String.toList from rfl]
      rw [joinCh_append [(mkPath ps).toList] _ (by simp) (by simp)]
      rw [show joinCh [(mkPath ps).toList] = (mkPath ps).toList from rfl, toList_mkPath]
      cases hpp : ps with
      | nil =>
          subst hpp
          rw [show joinCh (List.map String.toList []) = [] from rfl]
          show String.mk (collapseAux false ('/' :: '/' :: joinCh ((r1 :: rs).map String.toList))) = _
          rw [show collapseAux false ('/' :: '/' :: joinCh ((r1 :: rs).map String.toList)) =
              '/' :: collapseAux true (joinCh ((r1 :: rs).map String.toList)) by
            simp [collapseAux]]
          rw [collapseAux_true_joinCh _ hgr]
          exact (congrArg String.mk (toList_mkPath (r1 :: rs))).symm.trans (mk_toList _)
      | cons a as =>
          subst hpp
          rw [show ('/' :: joinCh ((a :: as).map String.toList)) ++ '/' :: joinCh ((r1 :: rs).map String.toList) =
              '/' :: (joinCh ((a :: as).map String.toList) ++ '/' :: joinCh ((r1 :: rs).map String.toList)) from rfl]
          rw [← joinCh_append _ _ (by simp) (by simp)]
          rw [show collapseAux false ('/' :: joinCh ((a :: as).map String.toList ++ (r1 :: rs).map String.toList)) =
              '/' :: collapseAux true (joinCh ((a :: as).map String.toList ++ (r1 :: rs).map String.toList)) by
            simp [collapseAux]]
          rw [collapseAux_true_joinCh _ (by
            intro g hg
            rcases List.mem_append.mp hg with hg | hg
            · exact hgp g hg
            · exact hgr g hg)]
          rw [← List.map_append]
          exact (congrArg String.mk (toList_mkPath ((a :: as) ++ r1 :: rs))).symm.trans (mk_toList _)

/-! ### computeRelativePath (create-store.ts) and claim C8 -/

/-- Length of the common component prefix (the `while` loop in
`computeRelativePath`). -/
def commonPrefixLen : List String → List String → Nat
  | a :: as, b :: bs => if a = b then commonPrefixLen as bs + 1 else 0
  | _, _ => 0

/-- `computeRelativePath` from create-store.ts: relative path from the
directory containing `fromFile` to `toPath` by common-prefix elimination;
an empty join collapses to `"."`. -/
def computeRelativePath (fromFile toPath : String) : String :=
  let fromParts := (jsSplit fromFile).dropLast
  let toParts := jsSplit toPath
  let common := commonPrefixLen fromParts toParts
  let ups := fromParts.length - common
  let joined := jsJoin (List.replicate ups ".." ++ toParts.drop common)
  if joined = "" then "." else joined

theorem commonPrefixLen_le_left : ∀ as bs : List String, commonPrefixLen as bs ≤ as.length := by
  intro as
  induction as with
  | nil => intro bs; cases bs <;> simp [commonPrefixLen]
  | cons a as2 ih =>
      intro bs
      cases bs with
      | nil => simp [commonPrefixLen]
      | cons b bs2 =>
          simp only [commonPrefixLen, List.length_cons]
          split
          · exact Nat.succ_le_succ (ih bs2)
          · omega

theorem commonPrefixLen_le_right : ∀ as bs : List String, commonPrefixLen as bs ≤ bs.length := by
  intro as
  induction as with
  | nil => intro bs; cases bs <;> simp [commonPrefixLen]
  | cons a as2 ih =>
      intro bs
      cases bs with
      | nil => simp [commonPrefixLen]
      | cons b bs2 =>
          simp only [commonPrefixLen, List.length_cons]
          split
          · exact Nat.succ_le_succ (ih bs2)
          · omega

theorem commonPrefixLen_take : ∀ as bs : List String,
    as.take (commonPrefixLen as bs) = bs.take (commonPrefixLen as bs) := by
  intro as
  induction as with
  | nil => intro bs; cases bs <;> simp [commonPrefixLen]
  | cons a as2 ih =>
      intro bs
      cases bs with
      | nil => simp [commonPrefixLen]
      | cons b bs2 =>
          simp only [commonPrefixLen]
          split
          · next heq => rw [List.take_succ_cons, List.take_succ_cons, heq, ih bs2]
          · simp

theorem jsJoin_ne_empty (p : String) (rest : List String) (hp : p ≠ "") :
    jsJoin (p :: rest) ≠ "" := by
  intro h
  have hl := congrArg String.toList h
  rw [toList_jsJoin] at hl
  have hpl : p.toList ≠ [] := fun hnil => hp (by cases p with | mk d => simpa using congrArg String.mk hnil)
  cases rest with
  | nil => exact hpl hl
  | cons r rs =>
      have : joinCh (p.toList :: (r :: rs).map String.toList) =
          p.toList ++ '/' :: joinCh ((r :: rs).map String.toList) := rfl
      rw [show List.map String.toList (p :: r :: rs) =
        p.toList :: (r :: rs).map String.toList from rfl, this] at hl
      rcases hplc : p.toList with _ | ⟨c, cs⟩
      · exact hpl hplc
      · rw [hplc] at hl
        simp at hl

theorem jsSplit_concat (X P : List String)
    (hX : ∀ s ∈ X, s ≠ "" ∧ '/' ∉ s.toList)
    (hPne : P ≠ []) (hPs : ∀ s ∈ P, '/' ∉ s.toList) :
    jsSplit (mkPath X ++ "/" ++ jsJoin P) = (if X = [] then ["", ""] else "" :: X) ++ P := by
  have htl : (mkPath X ++ "/" ++ jsJoin P).toList =
      '/' :: joinCh (X.map String.toList) ++ '/' :: joinCh (P.map String.toList) := by
    rw [toList_append, toList_append, toList_mkPath, toList_jsJoin]
    simp
  have hPg : ∀ g ∈ P.map String.toList, '/' ∉ g := by
    intro g hg
    rcases List.mem_map.mp hg with ⟨s, hs, rfl⟩
    exact hPs s hs
  cases hXX : X with
  | nil =>
      subst hXX
      show ((splitCh (mkPath [] ++ "/" ++ jsJoin P).toList).map String.mk) = _
      rw [htl]
      rw [show joinCh (List.map String.toList []) = [] from rfl]
      rw [show ('/' :: ([] : List Char) ++ '/' :: joinCh (P.map String.toList)) =
          '/' :: '/' :: joinCh (P.map String.toList) from rfl]
      rw [show splitCh ('/' :: '/' :: joinCh (P.map String.toList)) =
          [] :: [] :: splitCh (joinCh (P.map String.toList)) by simp [splitCh]]
      rw [splitCh_joinCh _ (by simpa using hPne) hPg]
      simp only [List.map_cons, List.map_map, Function.comp_def]
      rw [map_mk_toList]
      rfl
  | cons x xs =>
      subst hXX
      show ((splitCh (mkPath (x :: xs) ++ "/" ++ jsJoin P).toList).map String.mk) = _
      rw [htl]
      rw [show ('/' :: joinCh ((x :: xs).map String.toList) ++ '/' :: joinCh (P.map String.toList)) =
          '/' :: (joinCh ((x :: xs).map String.toList) ++ '/' :: joinCh (P.map String.toList)) from rfl]
      rw [← joinCh_append _ _ (by simp) (by simpa using hPne)]
      rw [show splitCh ('/' :: joinCh ((x :: xs).map String.toList ++ P.map String.toList)) =
          [] :: splitCh (joinCh ((x :: xs).map String.toList ++ P.map String.toList)) by simp [splitCh]]
      rw [splitCh_joinCh _ (by simp) (by
        intro g hg
        rcases List.mem_append.mp hg with hg | hg
        · rcases List.mem_map.mp hg with ⟨s, hs, rfl⟩
          exact (hX s hs).2
        · exact hPg g hg)]
      rw [← List.map_append]
      simp only [List.map_cons, List.map_map, Function.comp_def]
      rw [map_mk_toList]
      simp

/-- Resolving `dir ++ "/" ++ joined` through the in-memory adapter's
normalization folds the joined components onto the directory's. -/
theorem normalizePath_resolve (X P : List String)
    (hX : ∀ s ∈ X, WfComp s) (hPne : P ≠ []) (hPs : ∀ s ∈ P, '/' ∉ s.toList) :
    normalizePath (mkPath X ++ "/" ++ jsJoin P) = mkPath (P.foldl normStep X) := by
  unfold normalizePath
  rw [jsSplit_concat X P (fun s hs => ⟨(hX s hs).1, (hX s hs).2.1⟩) hPne hPs]
  congr 1
  rw [List.foldl_append]
  congr 1
  cases hXX : X with
  | nil => simp [normStep]
  | cons x xs =>
      subst hXX
      rw [if_neg (by simp), foldl_normStep_skip_empty, foldl_normStep_wf _ _ hX]
      simp

/-- **C8.**  For absolute well-formed component paths `L = mkPath ls` and
`T = mkPath ts`, resolving `computeRelativePath L T` against the directory
containing `L` (string join followed by the adapter's `..`/`.` elimination)
yields exactly `T`. -/
theorem c8_theorem (ls ts : List String) (hls : WfParts ls) (hts : WfParts ts)
    (hlsne : ls ≠ []) (htsne : ts ≠ []) :
    normalizePath (mkPath ls.dropLast ++ "/" ++
      computeRelativePath (mkPath ls) (mkPath ts)) = mkPath ts := by
  obtain ⟨l0, ls2, rfl⟩ : ∃ l0 ls2, ls = l0 :: ls2 := by
    cases ls with
    | nil => exact absurd rfl hlsne
    | cons a b => exact ⟨a, b, rfl⟩
  have hfrom : (jsSplit (mkPath (l0 :: ls2))).dropLast = "" :: (l0 :: ls2).dropLast := by
    rw [jsSplit_mkPath _ (by simp) (fun s hs => (hls s hs).2.1)]
    rfl
  have hto : jsSplit (mkPath ts) = "" :: ts :=
    jsSplit_mkPath _ htsne (fun s hs => (hts s hs).2.1)
  set X := (l0 :: ls2).dropLast with hXdef
  have hXwf : ∀ s ∈ X, WfComp s := fun s hs => hls s (List.dropLast_sublist _ |>.mem hs)
  set c := commonPrefixLen X ts with hcdef
  have hcle1 : c ≤ X.length := commonPrefixLen_le_left _ _
  have hcle2 : c ≤ ts.length := commonPrefixLen_le_right _ _
  have htake : X.take c = ts.take c := commonPrefixLen_take _ _
  have hcommon : commonPrefixLen ("" :: X) ("" :: ts) = c + 1 := by
    simp [commonPrefixLen, hcdef]
  have hunfold : ∀ f t : String, computeRelativePath f t =
      (if jsJoin (List.replicate ((jsSplit f).dropLast.length -
            commonPrefixLen (jsSplit f).dropLast (jsSplit t)) ".." ++
          (jsSplit t).drop (commonPrefixLen (jsSplit f).dropLast (jsSplit t))) = "" then "."
       else jsJoin (List.replicate ((jsSplit f).dropLast.length -
            commonPrefixLen (jsSplit f).dropLast (jsSplit t)) ".." ++
          (jsSplit t).drop (commonPrefixLen (jsSplit f).dropLast (jsSplit t)))) :=
    fun _ _ => rfl
  have hrel : computeRelativePath (mkPath (l0 :: ls2)) (mkPath ts) =
      (if jsJoin (List.replicate (X.length - c) ".." ++ ts.drop c) = "" then "."
       else jsJoin (List.replicate (X.length - c) ".." ++ ts.drop c)) := by
    rw [hunfold, hfrom, hto, hcommon]
    have h1 : ("" :: X).length - (c + 1) = X.length - c := by simp
    have h2 : ("" :: ts).drop (c + 1) = ts.drop c := by simp
    rw [h1, h2]
  by_cases hempty : List.replicate (X.length - c) ".." ++ ts.drop c = []
  · -- the relative path collapses to "."
    rw [hrel, if_pos (by rw [hempty]; rfl)]
    obtain ⟨hup0, hdrop⟩ := List.append_eq_nil.mp hempty
    have hXc : X.length = c := by
      have : X.length - c = 0 := by
        have h0 := congrArg List.length hup0
        simpa using h0
      omega
    have hts_eq : X = ts := by
      have h3 : ts.length ≤ c := by
        have h0 := congrArg List.length hdrop
        simp at h0
        omega
      have h4 : c = ts.length := by omega
      calc X = X.take c := by rw [← hXc]; simp
        _ = ts.take c := htake
        _ = ts := by rw [h4]; simp
    rw [show ("." : String) = jsJoin ["."] from rfl]
    rw [normalizePath_resolve X ["."] hXwf (by simp) (by decide)]
    rw [show List.foldl normStep X ["."] = X by simp [normStep]]
    rw [hts_eq]
  · -- the general case
    rw [hrel, if_neg ?hne]
    case hne =>
      intro hj
      rcases hrr : List.replicate (X.length - c) ".." ++ ts.drop c with _ | ⟨p, rest⟩
      · exact hempty hrr
      · refine jsJoin_ne_empty p rest ?_ (hrr ▸ hj)
        have hp : p ∈ List.replicate (X.length - c) ".." ++ ts.drop c := by
          rw [hrr]; exact List.mem_cons_self ..
        rcases List.mem_append.mp hp with hp | hp
        · rw [List.eq_of_mem_replicate hp]; decide
        · exact (hts p (List.mem_of_mem_drop hp)).1
    rw [normalizePath_resolve X _ hXwf hempty ?hslash]
    case hslash =>
      intro s hs
      rcases List.mem_append.mp hs with hs | hs
      · rw [List.eq_of_mem_replicate hs]; decide
      · exact (hts s (List.mem_of_mem_drop hs)).2.1
    rw [List.foldl_append, foldl_normStep_dotdot,
      show X.length - (X.length - c) = c by omega, htake,
      foldl_normStep_wf _ _ (fun s hs => hts s (List.mem_of_mem_drop hs))]
    rw [List.take_append_drop]

/-- **C8, witness.**  The theorem applied at `L = "/a/b/c.txt"`,
`T = "/a/x"`. -/
theorem c8_witness :
    normalizePath (mkPath (["a", "b", "c.txt"].dropLast) ++ "/" ++
      computeRelativePath (mkPath ["a", "b", "c.txt"]) (mkPath ["a", "x"])) =
      mkPath ["a", "x"] :=
  c8_theorem ["a", "b", "c.txt"] ["a", "x"] (by decide) (by decide) (by decide) (by decide)

/-! ### Data model: origin, manifest (packages/core/src/defs) -/

/-- `RfsOrigin`: what produced a space. -/
structure RfsOrigin where
  kind : String
  input : JsVal
  cacheKey : Option JsVal

/-- One `dependencies[]` entry of a manifest. -/
structure RfsDependency where
  mountPath : String
  origin : RfsOrigin
  scope : String
  exportName : Option String

/-- One `commands[]` entry of a manifest; `result` carries the normalized
`{ exports, metadata }` when the handler returned a value. -/
structure RfsCommandRecord where
  command : JsVal
  executedAt : String
  result : Option (List (String × String) × JsVal)

/-- `RfsManifest` (version, origin, exports, optional dependencies and
commands, metadata, timestamps). -/
structure RfsManifest where
  version : Nat
  origin : RfsOrigin
  exports : List (String × String)
  dependencies : Option (List RfsDependency)
  commands : Option (List RfsCommandRecord)
  metadata : JsVal
  createdAt : String
  updatedAt : String

/-! ### In-memory adapter (packages/memory/src/index.ts)

The adapter's backing store is a JavaScript `Map<string, Entry>`;
`mtime` fields are not observable through any claim and are omitted.
File contents are either raw text or a structured manifest value —
`JSON.stringify`/`JSON.parse` of a manifest (writeManifest/readManifest in
create-store.ts) is modelled as the identity round-trip on the structured
value. -/

/-- File contents. -/
inductive FileData where
  | text (s : String)
  | mani (m : RfsManifest)

/-- A `Map` entry: file, directory, or symlink. -/
inductive Entry where
  | file (content : FileData)
  | dir
  | symlink (target : String)

/-- The backing map, as an insertion-ordered association list. -/
abbrev FS := List (String × Entry)

/-- `store.get(k)`. -/
def fsLookup (fs : FS) (k : String) : Option Entry :=
  (fs.find? (fun kv => kv.1 == k)).map (fun kv => kv.2)

/-- `store.set(k, v)`: replace in place, else append. -/
def fsSet (fs : FS) (k : String) (v : Entry) : FS :=
  if fs.any (fun kv => kv.1 == k) then
    fs.map (fun kv => if kv.1 == k then (k, v) else kv)
  else fs ++ [(k, v)]

/-- `store.delete(k)`. -/
def fsDelete (fs : FS) (k : String) : FS := fs.filter (fun kv => kv.1 != k)

/-- `parentDir` from the in-memory adapter: `p.lastIndexOf('/')`, root on
index ≤ 0, else the prefix before it. -/
def lastSlashIdx : List Char → Int
  | [] => -1
  | c :: rest =>
      let r := lastSlashIdx rest
      if r ≥ 0 then r + 1 else if c = '/' then 0 else -1

def parentDir (p : String) : String :=
  let idx := lastSlashIdx p.toList
  if idx ≤ 0 then "/" else String.mk (p.toList.take idx.toNat)

def MAX_SYMLINK_DEPTH : Nat := 32

/-- `resolveSymlinkEntry`, with fuel = `MAX_SYMLINK_DEPTH + 1 - depth`;
fuel 0 is the `depth > 32` loop check. -/
def resolveSymlinkEntryAux (fs : FS) : Nat → String → Except String String
  | 0, path => .error ("Symlink loop detected at " ++ path)
  | fuel + 1, path =>
      match fsLookup fs path with
      | some (.symlink target) =>
          resolveSymlinkEntryAux fs fuel
            (normalizePath (if jsStartsWith target "/" then target
              else parentDir path ++ "/" ++ target))
      | _ => .ok path

def resolveSymlinkEntry (fs : FS) (p : String) : Except String String :=
  resolveSymlinkEntryAux fs (MAX_SYMLINK_DEPTH + 1) p

/-- `resolvePath`: walk each component, following symlinks at every
accumulated prefix. -/
def resolvePathAux (fs : FS) : List String → String → Except String String
  | [], current => .ok current
  | part :: rest, current =>
      let cur := current ++ "/" ++ part
      match fsLookup fs cur with
      | some (.symlink target) =>
          match resolveSymlinkEntry fs
              (normalizePath (if jsStartsWith target "/" then target
                else parentDir cur ++ "/" ++ target)) with
          | .error e => .error e
          | .ok r => resolvePathAux fs rest r
      | _ => resolvePathAux fs rest cur

def resolvePath (fs : FS) (p : String) : Except String String :=
  match resolvePathAux fs ((jsSplit p).filter (fun s => s != "")) "" with
  | .error e => .error e
  | .ok r => .ok (if r = "" then "/" else r)

/-- `ensureParentDirs`: create missing directories along all components
but the last. -/
def addDirChain : FS → String → List String → FS
  | fs, _, [] => fs
  | fs, cur, p :: rest =>
      let cur2 := cur ++ "/" ++ p
      let fs2 := if (fsLookup fs cur2).isSome then fs else fsSet fs cur2 .dir
      addDirChain fs2 cur2 rest

def ensureParentDirs (fs : FS) (path : String) : FS :=
  addDirChain fs "" (((jsSplit path).filter (fun s => s != "")).dropLast)

/-- `adapter.writeFile`. -/
def adapterWriteFile (fs : FS) (path : String) (content : FileData) : FS :=
  fsSet (ensureParentDirs fs (normalizePath path)) (normalizePath path) (.file content)

/-- `adapter.mkdir`: recursive, idempotent. -/
def adapterMkdir (fs : FS) (path : String) : FS :=
  addDirChain fs "" ((jsSplit (normalizePath path)).filter (fun s => s != ""))

/-- `adapter.readFile`: resolve symlinks, then require a file entry. -/
def adapterReadFile (fs : FS) (path : String) : Except String FileData :=
  match resolvePath fs (normalizePath path) with
  | .error e => .error e
  | .ok r =>
      match fsLookup fs r with
      | some (.file c) => .ok c
      | _ => .error ("ENOENT: no such file: " ++ path)

/-- `adapter.exists`: never throws; resolution errors give `false`. -/
def adapterExists (fs : FS) (path : String) : Bool :=
  match resolvePath fs (normalizePath path) with
  | .error _ => false
  | .ok r => (fsLookup fs r).isSome

/-- `adapter.remove`. -/
def adapterRemove (fs : FS) (path : String) (recursive : Bool) : FS :=
  let norm := normalizePath path
  if recursive then
    fs.filter (fun kv => !(kv.1 == norm || jsStartsWith kv.1 (norm ++ "/")))
  else fsDelete fs norm

/-- Destination key of one moved entry in `adapter.rename`. -/
def renameKey (srcNorm destNorm : String) (k : String) : String :=
  if k == srcNorm then destNorm
  else destNorm ++ String.mk (k.toList.drop srcNorm.toList.length)

/-- `adapter.rename`: move the whole subtree under the source key. -/
def adapterRename (fs : FS) (src dest : String) : FS :=
  let srcNorm := normalizePath src
  let destNorm := normalizePath dest
  let fs1 := ensureParentDirs fs destNorm
  let toMove := fs1.filter (fun kv => kv.1 == srcNorm || jsStartsWith kv.1 (srcNorm ++ "/"))
  let fs2 := fs1.filter (fun kv => !(kv.1 == srcNorm || jsStartsWith kv.1 (srcNorm ++ "/")))
  toMove.foldl (fun acc kv => fsSet acc (renameKey srcNorm destNorm kv.1) kv.2) fs2

/-- `adapter.symlink`. -/
def adapterSymlink (fs : FS) (target linkPath : String) : FS :=
  fsSet (ensureParentDirs fs (normalizePath linkPath)) (normalizePath linkPath) (.symlink target)

/-! ### Claim C9: symlink loops -/

/-- One symlink-resolution step: the normalized absolute target when the
entry at `p` is a symlink. -/
def symStep (fs : FS) (p : String) : Option String :=
  match fsLookup fs p with
  | some (.symlink target) =>
      some (normalizePath (if jsStartsWith target "/" then target
        else parentDir p ++ "/" ++ target))
  | _ => none

def symIter (fs : FS) : Nat → String → Option String
  | 0, p => some p
  | n + 1, p => (symStep fs p).bind (symIter fs n)

/-- `p` lies on a symlink cycle: some positive number of resolution steps
returns to `p`. -/
def OnSymlinkCycle (fs : FS) (p : String) : Prop :=
  ∃ n : Nat, 0 < n ∧ symIter fs n p = some p

/-- The entry at `q` is a symlink. -/
def SymlinkAt (fs : FS) (q : String) : Prop :=
  ∃ t, fsLookup fs q = some (.symlink t)

theorem symIter_add (fs : FS) (n m : Nat) (p : String) :
    symIter fs (n + m) p = (symIter fs m p).bind (symIter fs n) := by
  induction m generalizing p with
  | zero => rfl
  | succ k ih =>
      show symIter fs (n + k + 1) p = ((symStep fs p).bind (symIter fs k)).bind (symIter fs n)
      show (symStep fs p).bind (symIter fs (n + k)) = _
      cases symStep fs p with
      | none => rfl
      | some q => exact ih q

theorem cycle_step (fs : FS) (p : String) (h : OnSymlinkCycle fs p) :
    ∃ q, symStep fs p = some q ∧ OnSymlinkCycle fs q := by
  obtain ⟨n, hn, hiter⟩ := h
  obtain ⟨m, rfl⟩ : ∃ m, n = m + 1 := ⟨n - 1, by omega⟩
  have hiter2 : (symStep fs p).bind (symIter fs m) = some p := hiter
  cases hq : symStep fs p with
  | none => rw [hq] at hiter2; exact absurd hiter2 (by simp)
  | some q =>
      rw [hq] at hiter2
      simp only [Option.some_bind] at hiter2
      refine ⟨q, rfl, m + 1, by omega, ?_⟩
      have hadd : symIter fs (1 + m) q = (symIter fs m q).bind (symIter fs 1) :=
        symIter_add fs 1 m q
      rw [show m + 1 = 1 + m by omega, hadd, hiter2]
      simp only [Option.some_bind]
      show (symStep fs p).bind (symIter fs 0) = some q
      rw [hq]
      rfl

/-- On a cycle, the depth-limited resolver always reports a loop. -/
theorem cycle_resolveAux_error (fs : FS) : ∀ (fuel : Nat) (p : String),
    OnSymlinkCycle fs p →
    ∃ q, resolveSymlinkEntryAux fs fuel p = .error ("Symlink loop detected at " ++ q) := by
  intro fuel
  induction fuel with
  | zero => intro p _; exact ⟨p, rfl⟩
  | succ k ih =>
      intro p hp
      obtain ⟨q, hq, hqc⟩ := cycle_step fs p hp
      unfold symStep at hq
      cases hlk : fsLookup fs p with
      | none => rw [hlk] at hq; exact absurd hq (by simp)
      | some e =>
          cases e with
          | symlink target =>
              rw [hlk] at hq
              have hqeq : normalizePath (if jsStartsWith target "/" then target
                  else parentDir p ++ "/" ++ target) = q := Option.some.inj hq
              obtain ⟨r, hr⟩ := ih q hqc
              refine ⟨r, ?_⟩
              have hstep : resolveSymlinkEntryAux fs (k + 1) p =
                  resolveSymlinkEntryAux fs k
                    (normalizePath (if jsStartsWith target "/" then target
                      else parentDir p ++ "/" ++ target)) := by
                show (match fsLookup fs p with
                  | some (Entry.symlink t) =>
                      resolveSymlinkEntryAux fs k
                        (normalizePath (if jsStartsWith t "/" then t
                          else parentDir p ++ "/" ++ t))
                  | _ => Except.ok p) = _
                rw [hlk]
              rw [hstep, hqeq]
              exact hr
          | file c => rw [hlk] at hq; exact absurd hq (by simp)
          | dir => rw [hlk] at hq; exact absurd hq (by simp)

/-- The accumulated prefix paths `resolvePathAux` inspects while walking
the given components from `cur`. -/
def accPaths : String → List String → List String
  | _, [] => []
  | cur, p :: rest => (cur ++ "/" ++ p) :: accPaths (cur ++ "/" ++ p) rest

/-- The accumulated current path after walking components from `cur`. -/
def foldAcc (cur : String) (parts : List String) : String :=
  parts.foldl (fun c p => c ++ "/" ++ p) cur

theorem resolvePathAux_no_sym (fs : FS) (ys : List String) :
    ∀ (xs : List String) (cur : String), (∀ q ∈ accPaths cur xs, ¬ SymlinkAt fs q) →
    resolvePathAux fs (xs ++ ys) cur = resolvePathAux fs ys (foldAcc cur xs) := by
  intro xs
  induction xs with
  | nil => intro cur _; rfl
  | cons x rest ih =>
      intro cur hns
      have hx : ¬ SymlinkAt fs (cur ++ "/" ++ x) :=
        hns _ (by rw [accPaths]; exact List.mem_cons_self ..)
      show (match fsLookup fs (cur ++ "/" ++ x) with
        | some (Entry.symlink target) =>
            match resolveSymlinkEntry fs
                (normalizePath (if jsStartsWith target "/" then target
                  else parentDir (cur ++ "/" ++ x) ++ "/" ++ target)) with
            | Except.error e => Except.error e
            | Except.ok r => resolvePathAux fs (rest ++ ys) r
        | _ => resolvePathAux fs (rest ++ ys) (cur ++ "/" ++ x)) = _
      have hrec : resolvePathAux fs (rest ++ ys) (cur ++ "/" ++ x) =
          resolvePathAux fs ys (foldAcc (cur ++ "/" ++ x) rest) :=
        ih (cur ++ "/" ++ x) (fun q hq => hns q (by rw [accPaths]; exact List.mem_cons_of_mem _ hq))
      cases hlk : fsLookup fs (cur ++ "/" ++ x) with
      | none => exact hrec
      | some e =>
          cases e with
          | symlink t => exact absurd ⟨t, hlk⟩ hx
          | file c => exact hrec
          | dir => exact hrec

theorem jsJoin_cons (p q : String) (rest : List String) :
    jsJoin (p :: q :: rest) = p ++ "/" ++ jsJoin (q :: rest) := by
  apply toList_injective
  rw [toList_jsJoin, toList_append, toList_append, toList_jsJoin]
  show joinCh (p.toList :: (q :: rest).map String.toList) = _
  rw [show joinCh (p.toList :: (q :: rest).map String.toList) =
    p.toList ++ '/' :: joinCh ((q :: rest).map String.toList) from rfl]
  simp

theorem foldAcc_mkPath : ∀ (parts : List String) (cur : String), parts ≠ [] →
    foldAcc cur parts = cur ++ mkPath parts := by
  intro parts
  induction parts with
  | nil => intro cur h; exact absurd rfl h
  | cons p rest ih =>
      intro cur _
      cases rest with
      | nil =>
          show cur ++ "/" ++ p = cur ++ mkPath [p]
          rw [String.append_assoc]
          rfl
      | cons q rs =>
          show foldAcc (cur ++ "/" ++ p) (q :: rs) = cur ++ mkPath (p :: q :: rs)
          rw [ih _ (by simp)]
          show cur ++ "/" ++ p ++ ("/" ++ jsJoin (q :: rs)) = cur ++ ("/" ++ jsJoin (p :: q :: rs))
          rw [jsJoin_cons]
          simp [String.append_assoc]

theorem filter_ne_empty_of_wf (parts : List String) (h : ∀ s ∈ parts, s ≠ "") :
    parts.filter (fun s => s != "") = parts :=
  List.filter_eq_self.mpr (fun s hs => by simpa using h s hs)

/-- **C9.**  On the in-memory adapter, for a well-formed absolute path
whose proper prefixes hold no symlink and whose own entry lies on a
symlink cycle, `exists` returns `false` (it cannot throw: it is a total
`Bool` function by construction) and `readFile` fails with the
loop-detection error produced once the resolution depth exceeds
`MAX_SYMLINK_DEPTH = 32`. -/
theorem c9_theorem (fs : FS) (init : List String) (lastPart : String)
    (hwf : WfParts (init ++ [lastPart]))
    (hpre : ∀ q ∈ accPaths "" init, ¬ SymlinkAt fs q)
    (hcycle : OnSymlinkCycle fs (mkPath (init ++ [lastPart]))) :
    adapterExists fs (mkPath (init ++ [lastPart])) = false ∧
    ∃ q, adapterReadFile fs (mkPath (init ++ [lastPart])) =
      .error ("Symlink loop detected at " ++ q) := by
  have hnorm : normalizePath (mkPath (init ++ [lastPart])) = mkPath (init ++ [lastPart]) :=
    normalizePath_mkPath _ hwf
  have hsplit : (jsSplit (mkPath (init ++ [lastPart]))).filter (fun s => s != "") =
      init ++ [lastPart] := by
    rw [jsSplit_mkPath _ (by simp) (fun s hs => (hwf s hs).2.1)]
    rw [show ("" :: (init ++ [lastPart])).filter (fun s => s != "") =
        (init ++ [lastPart]).filter (fun s => s != "") by simp]
    exact filter_ne_empty_of_wf _ (fun s hs => (hwf s hs).1)
  have hwalk : resolvePathAux fs (init ++ [lastPart]) "" =
      resolvePathAux fs [lastPart] (foldAcc "" init) :=
    resolvePathAux_no_sym fs [lastPart] init "" hpre
  have hfold : foldAcc "" init ++ "/" ++ lastPart = mkPath (init ++ [lastPart]) := by
    cases init with
    | nil =>
        apply toList_injective
        rw [toList_append, toList_append, toList_mkPath]
        rfl
    | cons i1 irest =>
        rw [foldAcc_mkPath _ _ (by simp)]
        have h1 : ("" : String) ++ mkPath (i1 :: irest) = mkPath (i1 :: irest) :=
          toList_injective (by rw [toList_append]; rfl)
        rw [h1]
        apply toList_injective
        rw [toList_append, toList_append, toList_mkPath, toList_mkPath]
        rw [show ((i1 :: irest) ++ [lastPart]).map String.toList =
          (i1 :: irest).map String.toList ++ [lastPart.toList] by simp]
        rw [joinCh_append _ _ (by simp) (by simp)]
        simp [joinCh]
  obtain ⟨q, hq, hqc⟩ := cycle_step fs (mkPath (init ++ [lastPart])) hcycle
  unfold symStep at hq
  have hres : ∃ r, resolvePathAux fs (init ++ [lastPart]) "" =
      .error ("Symlink loop detected at " ++ r) := by
    rw [hwalk]
    show ∃ r, (match fsLookup fs (foldAcc "" init ++ "/" ++ lastPart) with
      | some (Entry.symlink target) =>
          match resolveSymlinkEntry fs
              (normalizePath (if jsStartsWith target "/" then target
                else parentDir (foldAcc "" init ++ "/" ++ lastPart) ++ "/" ++ target)) with
          | Except.error e => Except.error e
          | Except.ok r => resolvePathAux fs [] r
      | _ => resolvePathAux fs [] (foldAcc "" init ++ "/" ++ lastPart)) =
      Except.error ("Symlink loop detected at " ++ r)
    rw [hfold]
    cases hlk : fsLookup fs (mkPath (init ++ [lastPart])) with
    | none => rw [hlk] at hq; exact absurd hq (by simp)
    | some e =>
        cases e with
        | symlink target =>
            rw [hlk] at hq
            have hqeq : normalizePath (if jsStartsWith target "/" then target
                else parentDir (mkPath (init ++ [lastPart])) ++ "/" ++ target) = q :=
              Option.some.inj hq
            show ∃ r, (match resolveSymlinkEntry fs
                (normalizePath (if jsStartsWith target "/" then target
                  else parentDir (mkPath (init ++ [lastPart])) ++ "/" ++ target)) with
              | Except.error e => Except.error e
              | Except.ok r => resolvePathAux fs [] r) =
              Except.error ("Symlink loop detected at " ++ r)
            rw [hqeq]
            obtain ⟨r, hr⟩ := cycle_resolveAux_error fs (MAX_SYMLINK_DEPTH + 1) q hqc
            refine ⟨r, ?_⟩
            rw [show resolveSymlinkEntry fs q =
              resolveSymlinkEntryAux fs (MAX_SYMLINK_DEPTH + 1) q from rfl, hr]
        | file c => rw [hlk] at hq; exact absurd hq (by simp)
        | dir => rw [hlk] at hq; exact absurd hq (by simp)
  obtain ⟨r, hr⟩ := hres
  have hresolve : resolvePath fs (normalizePath (mkPath (init ++ [lastPart]))) =
      .error ("Symlink loop detected at " ++ r) := by
    rw [hnorm]
    unfold resolvePath
    rw [hsplit, hr]
  constructor
  · unfold adapterExists
    rw [hresolve]
  · refine ⟨r, ?_⟩
    unfold adapterReadFile
    rw [hresolve]

/-- **C9, witness.**  A two-link cycle `/a → /b → /a`. -/
theorem c9_witness :
    adapterExists [("/", .dir), ("/a", .symlink "b"), ("/b", .symlink "a")]
      (mkPath ([] ++ ["a"])) = false ∧
    ∃ q, adapterReadFile [("/", .dir), ("/a", .symlink "b"), ("/b", .symlink "a")]
      (mkPath ([] ++ ["a"])) = .error ("Symlink loop detected at " ++ q) :=
  c9_theorem [("/", .dir), ("/a", .symlink "b"), ("/b", .symlink "a")] [] "a"
    (by decide) (by simp [accPaths]) ⟨2, by omega, by decide⟩

/-! ### Store engine (create-store.ts)

The store is modelled in the configuration without a Locker and without
abort signals or per-call callbacks (their absent/default values); user
`onInit`/`onCommand` handlers are arbitrary functions of the backing map
that additionally report the custom payloads they emitted and either a
returned value or a thrown error (its message).  `Math.random()`'s temp
suffix and `new Date().toISOString()` are threaded as explicit
parameters.  Per-space listener delivery is modelled as emission logs
(`commandLog`, `customLog`). -/

/-- The event union (packages/core event types); errors are carried as
their messages. -/
inductive RfsEvent where
  | initStart (kind dataId : String) (input : JsVal)
  | initCached (kind dataId : String) (input : JsVal) (path : String)
  | initDone (kind dataId : String) (input : JsVal) (path : String)
      (exports : List (String × String)) (metadata : JsVal)
  | initError (kind dataId : String) (input : JsVal) (error : String)
  | commandStart (kind dataId : String) (command : JsVal)
  | commandDone (kind dataId : String) (command : JsVal)
      (exports : List (String × String)) (metadata : JsVal)
  | commandError (kind dataId : String) (command : JsVal) (error : String)
  | custom (kind dataId : String) (payload : JsVal)

/-- `exports` as returned by a handler: string shorthand or a map. -/
inductive RawExports where
  | str (s : String)
  | map (m : List (String × String))

/-- `RfsInitResult` / the object form of `RfsCommandResult`. -/
structure RfsInitResult where
  exports : Option RawExports
  metadata : Option JsVal

/-- A user `onInit` handler: given the backing map and the temp
`space/`/`local/` directories, produce the updated map, the emitted
custom payloads, and the returned value (`none` = returned void) or the
thrown error. -/
def OnInitFn : Type :=
  FS → String → String → FS × List JsVal × Except String (Option RfsInitResult)

/-- A user `onCommand` handler: backing map, content and local dirs, the
command, and the current `{ exports, metadata }`. -/
def OnCommandFn : Type :=
  FS → String → String → JsVal → List (String × String) × JsVal →
    FS × List JsVal × Except String (Option RfsInitResult)

/-- A Kind as produced by `defineKind`. -/
structure Kind where
  kind : String
  cacheKey : Option (JsVal → JsVal)
  onInit : OnInitFn
  onCommand : Option OnCommandFn

/- Constants from packages/core/src/defs/constants.ts. -/
def RFS_MANIFEST_FILENAME : String := ".radium-fs-manifest.json"
def RFS_SPACE_DIRNAME : String := "space"
def RFS_LOCAL_DIRNAME : String := "local"
def RFS_LOCAL_DEPS_DIRNAME : String := ".radium-fs-local-deps"
def RFS_DATA_DIRNAME : String := ".radium-fs-data"
def RFS_TEMP_PREFIX : String := ".tmp-"
def RFS_MANIFEST_VERSION : Nat := 1

/-- `getShard`: first two characters of the dataId. -/
def getShard (dataId : String) : String := String.mk (dataId.toList.take 2)

def buildDataDir (root kind dataId : String) : String :=
  joinPath [root, RFS_DATA_DIRNAME, kind, getShard dataId, dataId]

/-- `buildTempDir`, with the random suffix passed in. -/
def buildTempDir (root kind dataId rand : String) : String :=
  joinPath [root, RFS_DATA_DIRNAME, kind, getShard dataId,
    RFS_TEMP_PREFIX ++ dataId ++ "-" ++ rand]

def manifestPath (dir : String) : String := joinPath [dir, RFS_MANIFEST_FILENAME]

/-- `readManifest`: read and parse the manifest file. -/
def readManifest (fs : FS) (dir : String) : Except String RfsManifest :=
  match adapterReadFile fs (manifestPath dir) with
  | .error e => .error e
  | .ok (.mani m) => .ok m
  | .ok (.text _) => .error "JSON.parse: unexpected token"

def writeManifest (fs : FS) (dir : String) (m : RfsManifest) : FS :=
  adapterWriteFile fs (manifestPath dir) (.mani m)

def spaceExists (fs : FS) (dir : String) : Bool :=
  adapterExists fs (manifestPath dir)

/-- `normalizeExports`: absent or empty-string (falsy) exports map to the
default; a string shorthand maps to the `"."` entry; a map is copied. -/
def normalizeExports (raw : Option RawExports) : List (String × String) :=
  match raw with
  | none => [(".", ".")]
  | some (.str s) => if s = "" then [(".", ".")] else [(".", s)]
  | some (.map m) => m

def resolveAbsoluteExports (spaceDir : String) (rel : List (String × String)) :
    List (String × String) :=
  rel.map (fun kv => (kv.1, if kv.2 = "." then spaceDir else joinPath [spaceDir, kv.2]))

/-- A space handle (`RfsSpaceBase`). -/
structure RfsSpaceBase where
  dataId : String
  kind : String
  origin : RfsOrigin
  path : String
  exports : List (String × String)
  manifest : RfsManifest

def buildRfsSpaceBase (spaceDir : String) (manifest : RfsManifest)
    (kindName dataId : String) : RfsSpaceBase :=
  { dataId := dataId, kind := kindName, origin := manifest.origin, path := spaceDir,
    exports := resolveAbsoluteExports spaceDir manifest.exports, manifest := manifest }

/-- `x ?? default` on an optional JavaScript value. -/
def jsGetD (o : Option JsVal) (d : JsVal) : JsVal :=
  match o with
  | some v => if isNullish v then d else v
  | none => d

/-- Observable store state: the adapter map, the global event log, the
per-space command/custom emission logs, and the count of `onInit`
invocations. -/
structure StoreState where
  fs : FS
  events : List RfsEvent
  commandLog : List (String × RfsEvent)
  customLog : List (String × JsVal)
  initCalls : Nat

/-- The `catch` block of the build path: best-effort temp removal,
`init:error`, re-raise. -/
def initFail (st : StoreState) (tempDir kindName dataId : String) (inputRecord : JsVal)
    (e : String) : StoreState :=
  { st with
    fs := adapterRemove st.fs tempDir true,
    events := st.events ++ [.initError kindName dataId inputRecord e] }

/-- The build path of `ensureInternal` (cache miss): emit `init:start`,
create the temp tree, run `onInit`, normalize, write the manifest, rename
into place, read it back, emit `init:done`.  The in-memory adapter's
`rename` is total, so the concurrent-winner catch around it is
unreachable in this configuration and is not modelled. -/
def ensureBuild (K : Kind) (input inputRecord : JsVal) (dataId dataDir tempDir now : String)
    (st : StoreState) : StoreState × Except String RfsSpaceBase :=
  let st2 := { st with events := st.events ++ [RfsEvent.initStart K.kind dataId inputRecord] }
  let tempSpaceDir := joinPath [tempDir, RFS_SPACE_DIRNAME]
  let tempLocalDir := joinPath [tempDir, RFS_LOCAL_DIRNAME]
  let fs1 := adapterMkdir (adapterMkdir st2.fs tempSpaceDir) tempLocalDir
  let r := K.onInit fs1 tempSpaceDir tempLocalDir
  let fs2 := r.1
  let payloads := r.2.1
  let st3 := { st2 with
    fs := fs2,
    initCalls := st2.initCalls + 1,
    events := st2.events ++ payloads.map (RfsEvent.custom K.kind dataId),
    customLog := st2.customLog ++ payloads.map (fun pl => (dataId, pl)) }
  match r.2.2 with
  | .error e => (initFail st3 tempDir K.kind dataId inputRecord e, .error e)
  | .ok result =>
      let exportsMap := normalizeExports (result.bind (fun r => r.exports))
      let metadata := jsGetD (result.bind (fun r => r.metadata)) (.jobj [])
      let origin : RfsOrigin :=
        { kind := K.kind, input := inputRecord,
          cacheKey := K.cacheKey.map (fun f => f input) }
      let manifest : RfsManifest :=
        { version := RFS_MANIFEST_VERSION, origin := origin, exports := exportsMap,
          dependencies := none, commands := none, metadata := metadata,
          createdAt := now, updatedAt := now }
      let fs3 := writeManifest st3.fs tempDir manifest
      let fs4 := adapterRename fs3 tempDir dataDir
      match readManifest fs4 dataDir with
      | .error e => (initFail { st3 with fs := fs4 } tempDir K.kind dataId inputRecord e, .error e)
      | .ok finalManifest =>
          let finalSpaceDir := joinPath [dataDir, RFS_SPACE_DIRNAME]
          let space := buildRfsSpaceBase finalSpaceDir finalManifest K.kind dataId
          ({ st3 with
             fs := fs4,
             events := st3.events ++ [.initDone K.kind dataId inputRecord finalSpaceDir
               (resolveAbsoluteExports finalSpaceDir finalManifest.exports)
               finalManifest.metadata] },
           .ok space)

/-- `ensureInternal`: identity derivation, cache check, forced-rebuild
removal, then cached return or build.  The `dependencies` field stays
absent because the modelled handlers make no `dep()` calls
(`deps.length > 0` is false). -/
def ensureInternal (root : String) (K : Kind) (input : JsVal) (localDepsDir : Option String)
    (useCache : Bool) (now rand : String) (st : StoreState) :
    StoreState × Except String RfsSpaceBase :=
  let inputRecord := nullishOr input (.jobj [])
  let dataId := computeDataId K.kind inputRecord K.cacheKey
  let dataDir := match localDepsDir with
    | some d => joinPath [d, K.kind, getShard dataId, dataId]
    | none => buildDataDir root K.kind dataId
  if spaceExists st.fs dataDir && useCache then
    match readManifest st.fs dataDir with
    | .error e => (st, .error e)
    | .ok manifest =>
        let spaceDir := joinPath [dataDir, RFS_SPACE_DIRNAME]
        let space := buildRfsSpaceBase spaceDir manifest K.kind dataId
        ({ st with events := st.events ++ [.initCached K.kind dataId inputRecord spaceDir] },
         .ok space)
  else
    let st1 := if spaceExists st.fs dataDir && !useCache then
        { st with fs := adapterRemove st.fs dataDir true } else st
    let tempDir := match localDepsDir with
      | some d => joinPath [d, K.kind, getShard dataId, RFS_TEMP_PREFIX ++ dataId ++ "-" ++ rand]
      | none => buildTempDir root K.kind dataId rand
    ensureBuild K input inputRecord dataId dataDir tempDir now st1

/-- `store.ensure` (root call: no local-deps anchor). -/
def storeEnsure (root : String) (K : Kind) (input : JsVal) (useCache : Bool)
    (now rand : String) (st : StoreState) : StoreState × Except String RfsSpaceBase :=
  ensureInternal root K input none useCache now rand st

/-- The constant cacheKey function `find`/`has`/`remove` derive from a
stored origin (`origin.cacheKey ? () => origin.cacheKey! : undefined`). -/
def origCacheKeyFn (origin : RfsOrigin) : Option (JsVal → JsVal) :=
  match origin.cacheKey with
  | some ck => if jsTruthy ck then some (fun _ => ck) else none
  | none => none

/-- `store.has`. -/
def storeHas (root : String) (origin : RfsOrigin) (st : StoreState) : Bool :=
  spaceExists st.fs
    (buildDataDir root origin.kind (computeDataId origin.kind origin.input (origCacheKeyFn origin)))

/-- `store.remove`: recursive delete of the shared data directory.  The
per-space listener-map purge touches only in-process listener tables,
which the emission-log model does not retain. -/
def storeRemove (root : String) (origin : RfsOrigin) (st : StoreState) : StoreState :=
  let dataId := computeDataId origin.kind origin.input (origCacheKeyFn origin)
  let dataDir := buildDataDir root origin.kind dataId
  { st with fs := adapterRemove st.fs dataDir true }

/-- `space.send` (attached when the Kind has `onCommand`, here passed as
`h`): `command:start`, read manifest, run the handler on the final
content directory, then append the command record and persist, or emit
`command:error` and re-raise. -/
def sendCmd (K : Kind) (h : OnCommandFn) (dataDir spaceDir dataId : String) (command : JsVal)
    (now1 now2 : String) (st : StoreState) :
    StoreState × Except String (List (String × String) × JsVal) :=
  let startEvent := RfsEvent.commandStart K.kind dataId command
  let st1 := { st with
    events := st.events ++ [startEvent],
    commandLog := st.commandLog ++ [(dataId, startEvent)] }
  match readManifest st1.fs dataDir with
  | .error e =>
      let errEvent := RfsEvent.commandError K.kind dataId command e
      ({ st1 with
         events := st1.events ++ [errEvent],
         commandLog := st1.commandLog ++ [(dataId, errEvent)] }, .error e)
  | .ok currentManifest =>
      let localDir := joinPath [dataDir, RFS_LOCAL_DIRNAME]
      let r := h st1.fs spaceDir localDir command (currentManifest.exports, currentManifest.metadata)
      let fs2 := r.1
      let payloads := r.2.1
      let st2 := { st1 with
        fs := fs2,
        events := st1.events ++ payloads.map (RfsEvent.custom K.kind dataId),
        customLog := st1.customLog ++ payloads.map (fun pl => (dataId, pl)) }
      match r.2.2 with
      | .error e =>
          let errEvent := RfsEvent.commandError K.kind dataId command e
          ({ st2 with
             events := st2.events ++ [errEvent],
             commandLog := st2.commandLog ++ [(dataId, errEvent)] }, .error e)
      | .ok result =>
          let newExports := match result.bind (fun r => r.exports) with
            | some (.str s) => if s = "" then currentManifest.exports else [(".", s)]
            | some (.map m) => m
            | none => currentManifest.exports
          let newMetadata := jsGetD (result.bind (fun r => r.metadata)) currentManifest.metadata
          let commandRecord : RfsCommandRecord :=
            { command := command, executedAt := now1,
              result := match result with
                | some _ => some (newExports, newMetadata)
                | none => none }
          let newManifest : RfsManifest :=
            { currentManifest with
              exports := newExports,
              metadata := newMetadata,
              commands := some ((currentManifest.commands.getD []) ++ [commandRecord]),
              updatedAt := now2 }
          let fs3 := writeManifest st2.fs dataDir newManifest
          let resolvedExports := resolveAbsoluteExports spaceDir newExports
          let doneEvent := RfsEvent.commandDone K.kind dataId command resolvedExports newMetadata
          ({ st2 with
             fs := fs3,
             events := st2.events ++ [doneEvent],
             commandLog := st2.commandLog ++ [(dataId, doneEvent)] },
           .ok (resolvedExports, newMetadata))

/-! ### Claim C2: ensure idempotence -/

/-- The shared data directory a root `ensure(K, I)` resolves. -/
def ensureDataDir (root : String) (K : Kind) (input : JsVal) : String :=
  buildDataDir root K.kind (computeDataId K.kind (nullishOr input (.jobj [])) K.cacheKey)

theorem adapterReadFile_ok_exists {fs : FS} {p : String} {fd : FileData}
    (h : adapterReadFile fs p = .ok fd) : adapterExists fs p = true := by
  unfold adapterReadFile at h
  unfold adapterExists
  cases hres : resolvePath fs (normalizePath p) with
  | error e => rw [hres] at h; simp at h
  | ok r =>
      rw [hres] at h
      replace h : (match fsLookup fs r with
        | some (Entry.file c) => Except.ok c
        | _ => Except.error ("ENOENT: no such file: " ++ p)) = Except.ok fd := h
      show (fsLookup fs r).isSome = true
      cases hlk : fsLookup fs r with
      | none => rw [hlk] at h; simp at h
      | some e => rfl

theorem readManifest_ok_spaceExists {fs : FS} {dir : String} {m : RfsManifest}
    (h : readManifest fs dir = .ok m) : spaceExists fs dir = true := by
  unfold readManifest at h
  cases har : adapterReadFile fs (manifestPath dir) with
  | error e => rw [har] at h; simp at h
  | ok fd => exact adapterReadFile_ok_exists har

section EnsureProofs

/- Inside this section the path- and identity-level functions are opaque:
the proofs below take the store engine apart structurally and never need
to evaluate a path or a digest. -/
attribute [local irreducible] computeDataId buildDataDir buildTempDir joinPath
  normalizePath manifestPath readManifest writeManifest spaceExists adapterReadFile
  adapterExists resolvePath adapterRemove adapterMkdir adapterRename ensureParentDirs
  jsSplit jsJoin mkPath splitCh joinCh nullishOr getShard normalizeExports
  resolveAbsoluteExports

set_option maxHeartbeats 1000000 in
/-- Dissection of a successful root `ensure`: the returned handle's
fields, and that the final state can re-read the manifest it carries at
the resolved data directory. -/
theorem storeEnsure_ok_readback (root : String) (K : Kind) (input : JsVal)
    (useCache : Bool) (now rand : String) (st0 st1 : StoreState) (sp : RfsSpaceBase)
    (h : storeEnsure root K input useCache now rand st0 = (st1, .ok sp)) :
    readManifest st1.fs (ensureDataDir root K input) = .ok sp.manifest ∧
    sp.dataId = computeDataId K.kind (nullishOr input (.jobj [])) K.cacheKey ∧
    sp.path = joinPath [ensureDataDir root K input, RFS_SPACE_DIRNAME] := by
  unfold ensureDataDir
  simp only [storeEnsure, ensureInternal] at h
  split at h
  · -- cached branch
    split at h
    · simp at h
    · next manifest hrm =>
        simp only [Prod.mk.injEq] at h
        obtain ⟨hst, hsp⟩ := h
        simp only [Except.ok.injEq] at hsp
        subst hst
        subst hsp
        exact ⟨hrm, rfl, rfl⟩
  · -- build branch
    simp only [ensureBuild] at h
    split at h
    · simp at h
    · next result hres =>
        split at h
        · simp at h
        · next finalManifest hfm =>
            simp only [Prod.mk.injEq] at h
            obtain ⟨hst, hsp⟩ := h
            simp only [Except.ok.injEq] at hsp
            subst hst
            subst hsp
            exact ⟨hfm, rfl, rfl⟩

set_option maxHeartbeats 1000000 in
/-- A successful fresh (cache-miss) root `ensure` ran `onInit` exactly
once. -/
theorem storeEnsure_fresh_initCalls (root : String) (K : Kind) (input : JsVal)
    (useCache : Bool) (now rand : String) (st0 st1 : StoreState) (sp : RfsSpaceBase)
    (h : storeEnsure root K input useCache now rand st0 = (st1, .ok sp))
    (hfresh : spaceExists st0.fs (ensureDataDir root K input) = false) :
    st1.initCalls = st0.initCalls + 1 := by
  simp only [storeEnsure, ensureInternal] at h
  simp only [ensureDataDir] at hfresh
  generalize hgen : computeDataId K.kind (nullishOr input (.jobj [])) K.cacheKey = dId at h hfresh
  generalize hgen2 : buildDataDir root K.kind dId = dd at h hfresh
  rw [hfresh] at h
  simp only [Bool.false_and, Bool.false_eq_true, if_false] at h
  simp only [ensureBuild] at h
  split at h
  · simp at h
  · next result hres =>
      split at h
      · simp at h
      · next finalManifest hfm =>
          simp only [Prod.mk.injEq] at h
          obtain ⟨hst, _⟩ := h
          subst hst
          rfl

set_option maxHeartbeats 1000000 in
/-- **C2.**  After one successful `ensure(K, I)`, a second sequential
`ensure(K, I)` with default options (cache on) invokes `onInit` zero
further times and changes the state only by appending the single
`init:cached` event; it returns a space with the same dataId, path and
manifest.  Moreover, if the first call was a cache miss, `onInit` ran
exactly once in it. -/
theorem c2_theorem (root : String) (K : Kind) (input : JsVal)
    (now1 rand1 now2 rand2 : String) (st0 st1 : StoreState) (sp1 : RfsSpaceBase)
    (h1 : storeEnsure root K input true now1 rand1 st0 = (st1, .ok sp1)) :
    (∃ sp2 : RfsSpaceBase,
      storeEnsure root K input true now2 rand2 st1 =
        ({ st1 with
            events := st1.events ++ [RfsEvent.initCached K.kind sp1.dataId
              (nullishOr input (.jobj [])) sp1.path] }, .ok sp2) ∧
      sp2.dataId = sp1.dataId ∧ sp2.path = sp1.path ∧ sp2.manifest = sp1.manifest) ∧
    (spaceExists st0.fs (ensureDataDir root K input) = false →
      st1.initCalls = st0.initCalls + 1) := by
  obtain ⟨hrm, hdid, hpath⟩ := storeEnsure_ok_readback root K input true now1 rand1 st0 st1 sp1 h1
  constructor
  · refine ⟨buildRfsSpaceBase (joinPath [ensureDataDir root K input, RFS_SPACE_DIRNAME])
      sp1.manifest K.kind (computeDataId K.kind (nullishOr input (.jobj [])) K.cacheKey),
      ?_, hdid.symm, hpath.symm, rfl⟩
    simp only [storeEnsure, ensureInternal]
    simp only [ensureDataDir] at hrm
    rw [hdid, hpath]
    simp only [ensureDataDir]
    generalize hgen : computeDataId K.kind (nullishOr input (.jobj [])) K.cacheKey = dId at hrm ⊢
    generalize hgen2 : buildDataDir root K.kind dId = dd at hrm ⊢
    rw [readManifest_ok_spaceExists hrm]
    simp only [Bool.true_and, if_true]
    rw [hrm]
  · exact storeEnsure_fresh_initCalls root K input true now1 rand1 st0 st1 sp1 h1

end EnsureProofs

/-- **C2, witness.**  A concrete first ensure on an empty store (kind
`k`, input `{}`, onInit writing nothing and returning void), followed by
the theorem's second call. -/
def witnessKind : Kind :=
  { kind := "k", cacheKey := none,
    onInit := fun fs _ _ => (fs, [], .ok none),
    onCommand := none }

def witnessState : StoreState :=
  { fs := [("/", .dir)], events := [], commandLog := [], customLog := [], initCalls := 0 }

/-- The state after the first concrete ensure. -/
def c2FirstState : StoreState :=
  (storeEnsure "/r" witnessKind (.jobj []) true "t1" "r1" witnessState).1

/-- The space returned by the first concrete ensure. -/
def c2FirstSpace : RfsSpaceBase :=
  match (storeEnsure "/r" witnessKind (.jobj []) true "t1" "r1" witnessState).2 with
  | .ok sp => sp
  | .error _ =>
      { dataId := ""
        kind := ""
        origin := { kind := "", input := .jnull, cacheKey := none }
        path := ""
        exports := []
        manifest :=
          { version := 0
            origin := { kind := "", input := .jnull, cacheKey := none }
            exports := []
            dependencies := none
            commands := none
            metadata := .jnull
            createdAt := ""
            updatedAt := "" } }

set_option maxRecDepth 8000 in
set_option maxHeartbeats 2000000 in
theorem c2_witness :
    (∃ sp2 : RfsSpaceBase,
      storeEnsure "/r" witnessKind (.jobj []) true "t2" "r2" c2FirstState =
        ({ c2FirstState with
            events := c2FirstState.events ++
              [RfsEvent.initCached witnessKind.kind c2FirstSpace.dataId
                (nullishOr (.jobj []) (.jobj [])) c2FirstSpace.path] }, .ok sp2) ∧
      sp2.dataId = c2FirstSpace.dataId ∧ sp2.path = c2FirstSpace.path ∧
      sp2.manifest = c2FirstSpace.manifest) ∧
    (spaceExists witnessState.fs (ensureDataDir "/r" witnessKind (.jobj [])) = false →
      c2FirstState.initCalls = witnessState.initCalls + 1) :=
  c2_theorem "/r" witnessKind (.jobj []) "t1" "r1" "t2" "r2" witnessState
    c2FirstState c2FirstSpace rfl


/-! ### Claim C5: command records -/

/-- The manifest of the pre-populated space used to exercise `send`. -/
def c5m0 : RfsManifest :=
  { version := 1
    origin := { kind := "k", input := .jobj [], cacheKey := none }
    exports := [(".", ".")]
    dependencies := none
    commands := none
    metadata := .jobj []
    createdAt := "t0"
    updatedAt := "t0" }

/-- A command handler that returns nothing (`undefined`). -/
def c5hnd : OnCommandFn := fun fs _ _ _ _ => (fs, [], .ok none)

def c5K : Kind :=
  { kind := "k", cacheKey := none, onInit := fun fs _ _ => (fs, [], .ok none),
    onCommand := some c5hnd }

def c5fs0 : FS :=
  [("/", .dir), ("/d", .dir), ("/d/.radium-fs-manifest.json", .file (.mani c5m0))]

def c5st0 : StoreState :=
  { fs := c5fs0, events := [], commandLog := [], customLog := [], initCalls := 0 }

def c5run : StoreState × Except String (List (String × String) × JsVal) :=
  sendCmd c5K c5hnd "/d" "/d/space" "id0" (.jstr "noop") "t1" "t2" c5st0

/-- **C5, counterexample.**  A handler that returns nothing (`undefined`)
still gets a `commands[]` record appended on a successful `send`: only the
record's `result` field is omitted.  Here the handler returns `.ok none`,
the send succeeds, and the persisted manifest holds one record with
`result := none`, contradicting the claimed "appends no record". -/
theorem c5_claim_false :
    (c5hnd c5fs0 "/d/space" "/d/local" (.jstr "noop") (c5m0.exports, c5m0.metadata)).2.2 =
      .ok none ∧
    c5run.2 = .ok ([(".", "/d/space")], .jobj []) ∧
    fsLookup c5run.1.fs "/d/.radium-fs-manifest.json" =
      some (.file (.mani
        { version := 1
          origin := { kind := "k", input := .jobj [], cacheKey := none }
          exports := [(".", ".")]
          dependencies := none
          commands := some [{ command := .jstr "noop", executedAt := "t1", result := none }]
          metadata := .jobj []
          createdAt := "t0"
          updatedAt := "t2" })) :=
  ⟨rfl, rfl, rfl⟩

section SendProofs

attribute [local irreducible] computeDataId buildDataDir buildTempDir joinPath
  normalizePath manifestPath readManifest writeManifest spaceExists adapterReadFile
  adapterExists resolvePath adapterRemove adapterMkdir adapterRename ensureParentDirs
  jsSplit jsJoin mkPath splitCh joinCh nullishOr getShard normalizeExports
  resolveAbsoluteExports jsGetD

/-- **C5.**  (amended)  On a successful `send`, a `commands[]` record
`{ command, executedAt: now, result }` is appended to the persisted
manifest unconditionally; only its `result` field reflects whether the
handler returned anything (`result: { exports, metadata }` when it did,
an absent `result` when it returned nothing). -/
theorem c5_amended (K : Kind) (hnd : OnCommandFn) (dataDir spaceDir dataId : String)
    (command : JsVal) (now1 now2 : String) (st st' : StoreState)
    (out : List (String × String) × JsVal)
    (h : sendCmd K hnd dataDir spaceDir dataId command now1 now2 st = (st', .ok out)) :
    ∃ (m : RfsManifest) (res : Option RfsInitResult) (fs2 : FS)
      (newExports : List (String × String)) (newMetadata : JsVal),
      readManifest st.fs dataDir = .ok m ∧
      (hnd st.fs spaceDir (joinPath [dataDir, RFS_LOCAL_DIRNAME]) command
        (m.exports, m.metadata)).2.2 = .ok res ∧
      out = (resolveAbsoluteExports spaceDir newExports, newMetadata) ∧
      st'.fs = writeManifest fs2 dataDir
        { m with
          exports := newExports
          metadata := newMetadata
          commands := some (m.commands.getD [] ++
            [{ command := command, executedAt := now1,
               result := match res with
                 | some _ => some (newExports, newMetadata)
                 | none => none }])
          updatedAt := now2 } := by
  simp only [sendCmd] at h
  split at h
  · next e hrm => simp at h
  · next m hrm =>
      split at h
      · next e hres => simp at h
      · next res hres =>
          simp only [Prod.mk.injEq, Except.ok.injEq] at h
          obtain ⟨hst, hout⟩ := h
          refine ⟨m, res,
            (hnd st.fs spaceDir (joinPath [dataDir, RFS_LOCAL_DIRNAME]) command
              (m.exports, m.metadata)).1,
            (match res.bind (fun r => r.exports) with
              | some (.str s) => if s = "" then m.exports else [(".", s)]
              | some (.map mm) => mm
              | none => m.exports),
            jsGetD (res.bind (fun r => r.metadata)) m.metadata,
            hrm, hres, hout.symm, ?_⟩
          subst hst
          rfl

end SendProofs

set_option maxHeartbeats 2000000 in
/-- **C5, witness.**  The amended theorem applied to the concrete
nothing-returning handler run. -/
theorem c5_witness :
    ∃ (m : RfsManifest) (res : Option RfsInitResult) (fs2 : FS)
      (newExports : List (String × String)) (newMetadata : JsVal),
      readManifest c5st0.fs "/d" = .ok m ∧
      (c5hnd c5st0.fs "/d/space" (joinPath ["/d", RFS_LOCAL_DIRNAME]) (.jstr "noop")
        (m.exports, m.metadata)).2.2 = .ok res ∧
      ([(".", "/d/space")], JsVal.jobj []) = (resolveAbsoluteExports "/d/space" newExports, newMetadata) ∧
      c5run.1.fs = writeManifest fs2 "/d"
        { m with
          exports := newExports
          metadata := newMetadata
          commands := some (m.commands.getD [] ++
            [{ command := .jstr "noop", executedAt := "t1",
               result := match res with
                 | some _ => some (newExports, newMetadata)
                 | none => none }])
          updatedAt := "t2" } :=
  c5_amended c5K c5hnd "/d" "/d/space" "id0" (.jstr "noop") "t1" "t2" c5st0 c5run.1
    ([(".", "/d/space")], .jobj []) rfl

/-! ### Claim C10: remove on an absent space -/

def c10origin : RfsOrigin := { kind := "k", input := .jobj [], cacheKey := none }

def c10dd : String := buildDataDir "/r" "k" (computeDataId "k" (.jobj []) none)

def c10fs0 : FS := [("/", .dir), (c10dd ++ "/stray", .file (.text "x"))]

def c10st0 : StoreState :=
  { fs := c10fs0, events := [], commandLog := [], customLog := [], initCalls := 0 }

set_option maxRecDepth 10000 in
set_option maxHeartbeats 4000000 in
/-- **C10, counterexample.**  `has(origin)` is `false` (no manifest file
is materialized), yet `remove(origin)` is not a no-op on the adapter's
stored contents: a stray entry under the computed data directory is
deleted by the recursive removal. -/
theorem c10_claim_false :
    storeHas "/r" c10origin c10st0 = false ∧
    fsLookup c10st0.fs (c10dd ++ "/stray") = some (.file (.text "x")) ∧
    fsLookup (storeRemove "/r" c10origin c10st0).fs (c10dd ++ "/stray") = none := by
  refine ⟨by decide, rfl, rfl⟩

/-- **C10.**  (amended)  `store.remove` never throws (it is total by
construction), and on a store holding no entry at or under the origin's
data directory it leaves the adapter's contents unchanged, with
`has(origin)` still `false` afterwards when it was `false` before. -/
theorem c10_amended (root : String) (origin : RfsOrigin) (st : StoreState)
    (h : ∀ kv ∈ st.fs,
      (kv.1 == normalizePath (buildDataDir root origin.kind
          (computeDataId origin.kind origin.input (origCacheKeyFn origin))) ||
        jsStartsWith kv.1 (normalizePath (buildDataDir root origin.kind
          (computeDataId origin.kind origin.input (origCacheKeyFn origin))) ++ "/")) = false) :
    (storeRemove root origin st).fs = st.fs ∧
    (storeHas root origin st = false →
      storeHas root origin (storeRemove root origin st) = false) := by
  have hfs : (storeRemove root origin st).fs = st.fs := by
    show st.fs.filter _ = st.fs
    refine List.filter_eq_self.mpr (fun kv hkv => ?_)
    rw [h kv hkv]
    rfl
  refine ⟨hfs, fun hh => ?_⟩
  show spaceExists (storeRemove root origin st).fs _ = false
  rw [hfs]
  exact hh

def c10stw : StoreState :=
  { fs := [("/", .dir)], events := [], commandLog := [], customLog := [], initCalls := 0 }

/-- **C10, witness.**  The amended theorem on a store holding only the
root directory. -/
theorem c10_witness :
    (storeRemove "/r" c10origin c10stw).fs = c10stw.fs ∧
    (storeHas "/r" c10origin c10stw = false →
      storeHas "/r" c10origin (storeRemove "/r" c10origin c10stw) = false) :=
  c10_amended "/r" c10origin c10stw (by decide)


/-! ### Claim C6: command handler errors -/

/-- `q` lies at or strictly below the directory `d` in the key space of
the backing map. -/
def UnderDir (d q : String) : Prop := q = d ∨ jsStartsWith q (d ++ "/") = true

instance (d q : String) : Decidable (UnderDir d q) := by unfold UnderDir; infer_instance

/-- A well-formed absolute path is not at or under another one with at
least as many components unless they are equal. -/
theorem not_underDir_parts {ps qs : List String}
    (hps : ∀ s ∈ ps, s ≠ "" ∧ '/' ∉ s.toList)
    (hqs : ∀ s ∈ qs, s ≠ "" ∧ '/' ∉ s.toList)
    (hqne : qs ≠ [])
    (hlen : ps.length ≤ qs.length) (hneq : ps ≠ qs) :
    ¬ UnderDir (mkPath qs) (mkPath ps) := by
  intro hu
  rcases hu with heq | hsw
  · exact hneq (mkPath_injective hps hqs heq)
  · obtain ⟨hl, _⟩ := startsWith_mkPath_parts hqs hps hqne hsw
    omega

theorem manifestPath_mkPath (ds : List String)
    (hds : ∀ s ∈ ds, s ≠ "" ∧ '/' ∉ s.toList) :
    manifestPath (mkPath ds) = mkPath (ds ++ [RFS_MANIFEST_FILENAME]) :=
  joinPath_mkPath ds [RFS_MANIFEST_FILENAME] hds (by decide)

theorem spaceDir_mkPath (ds : List String)
    (hds : ∀ s ∈ ds, s ≠ "" ∧ '/' ∉ s.toList) :
    joinPath [mkPath ds, RFS_SPACE_DIRNAME] = mkPath (ds ++ [RFS_SPACE_DIRNAME]) :=
  joinPath_mkPath ds [RFS_SPACE_DIRNAME] hds (by decide)

theorem localDir_mkPath (ds : List String)
    (hds : ∀ s ∈ ds, s ≠ "" ∧ '/' ∉ s.toList) :
    joinPath [mkPath ds, RFS_LOCAL_DIRNAME] = mkPath (ds ++ [RFS_LOCAL_DIRNAME]) :=
  joinPath_mkPath ds [RFS_LOCAL_DIRNAME] hds (by decide)

theorem append_singleton_wf {ds : List String} (c : String)
    (hds : ∀ s ∈ ds, s ≠ "" ∧ '/' ∉ s.toList)
    (hc : c ≠ "" ∧ '/' ∉ c.toList) :
    ∀ s ∈ ds ++ [c], s ≠ "" ∧ '/' ∉ s.toList := by
  intro s hs
  rcases List.mem_append.mp hs with h | h
  · exact hds s h
  · rw [List.mem_singleton.mp h]; exact hc

/-- **C6.**  When the `onCommand` handler throws, `send` leaves the
manifest file's entry untouched (no record appended, nothing persisted),
keeps every write the handler made before throwing (the final map is
exactly the handler's), emits `command:start` then `command:error` on the
global and per-space channels, and re-raises the original error.  The
handler is assumed to touch keys only at or under the content (`space/`)
and `local/` directories. -/
theorem c6_theorem (K : Kind) (hnd : OnCommandFn) (ds : List String)
    (hwf : WfParts ds)
    (dataId : String) (command : JsVal) (now1 now2 : String)
    (st st' : StoreState) (res : Except String (List (String × String) × JsVal))
    (m : RfsManifest) (e : String)
    (hrm : readManifest st.fs (mkPath ds) = .ok m)
    (hherr : (hnd st.fs (joinPath [mkPath ds, RFS_SPACE_DIRNAME])
        (joinPath [mkPath ds, RFS_LOCAL_DIRNAME]) command (m.exports, m.metadata)).2.2 =
        .error e)
    (hconf : ∀ q, ¬ UnderDir (joinPath [mkPath ds, RFS_SPACE_DIRNAME]) q →
        ¬ UnderDir (joinPath [mkPath ds, RFS_LOCAL_DIRNAME]) q →
        fsLookup (hnd st.fs (joinPath [mkPath ds, RFS_SPACE_DIRNAME])
          (joinPath [mkPath ds, RFS_LOCAL_DIRNAME]) command (m.exports, m.metadata)).1 q =
          fsLookup st.fs q)
    (h : sendCmd K hnd (mkPath ds) (joinPath [mkPath ds, RFS_SPACE_DIRNAME]) dataId command
        now1 now2 st = (st', res)) :
    res = .error e ∧
    st'.fs = (hnd st.fs (joinPath [mkPath ds, RFS_SPACE_DIRNAME])
      (joinPath [mkPath ds, RFS_LOCAL_DIRNAME]) command (m.exports, m.metadata)).1 ∧
    fsLookup st'.fs (manifestPath (mkPath ds)) = fsLookup st.fs (manifestPath (mkPath ds)) ∧
    st'.events = st.events ++ [RfsEvent.commandStart K.kind dataId command] ++
      ((hnd st.fs (joinPath [mkPath ds, RFS_SPACE_DIRNAME])
        (joinPath [mkPath ds, RFS_LOCAL_DIRNAME]) command (m.exports, m.metadata)).2.1).map
        (RfsEvent.custom K.kind dataId) ++
      [RfsEvent.commandError K.kind dataId command e] ∧
    st'.commandLog = st.commandLog ++
      [(dataId, RfsEvent.commandStart K.kind dataId command)] ++
      [(dataId, RfsEvent.commandError K.kind dataId command e)] := by
  have hds' : ∀ s ∈ ds, s ≠ "" ∧ '/' ∉ s.toList :=
    fun s hs => ⟨(hwf s hs).1, (hwf s hs).2.1⟩
  have hmani : ¬ UnderDir (joinPath [mkPath ds, RFS_SPACE_DIRNAME])
      (manifestPath (mkPath ds)) := by
    rw [manifestPath_mkPath ds hds', spaceDir_mkPath ds hds']
    apply not_underDir_parts (append_singleton_wf _ hds' (by decide))
      (append_singleton_wf _ hds' (by decide)) (by simp) (by simp)
    intro hh
    exact absurd (List.append_cancel_left hh) (by decide)
  have hmani2 : ¬ UnderDir (joinPath [mkPath ds, RFS_LOCAL_DIRNAME])
      (manifestPath (mkPath ds)) := by
    rw [manifestPath_mkPath ds hds', localDir_mkPath ds hds']
    apply not_underDir_parts (append_singleton_wf _ hds' (by decide))
      (append_singleton_wf _ hds' (by decide)) (by simp) (by simp)
    intro hh
    exact absurd (List.append_cancel_left hh) (by decide)
  simp only [sendCmd] at h
  split at h
  · next e' hrm' =>
      have hc : readManifest st.fs (mkPath ds) = .error e' := hrm'
      rw [hrm] at hc
      exact absurd hc (by simp)
  · next m' hrm' =>
      have hc : readManifest st.fs (mkPath ds) = .ok m' := hrm'
      rw [hrm] at hc
      replace hc : m = m' := Except.ok.inj hc
      subst hc
      split at h
      · next e' hres =>
          have hc2 : (hnd st.fs (joinPath [mkPath ds, RFS_SPACE_DIRNAME])
              (joinPath [mkPath ds, RFS_LOCAL_DIRNAME]) command (m.exports, m.metadata)).2.2 =
              .error e' := hres
          rw [hherr] at hc2
          replace hc2 : e = e' := Except.error.inj hc2
          subst hc2
          simp only [Prod.mk.injEq] at h
          obtain ⟨hst, hres2⟩ := h
          subst hst
          refine ⟨hres2.symm, rfl, hconf _ hmani hmani2, ?_, ?_⟩
          · simp [List.append_assoc]
          · simp [List.append_assoc]
      · next r' hres =>
          have hc2 : (hnd st.fs (joinPath [mkPath ds, RFS_SPACE_DIRNAME])
              (joinPath [mkPath ds, RFS_LOCAL_DIRNAME]) command (m.exports, m.metadata)).2.2 =
              .ok r' := hres
          rw [hherr] at hc2
          exact absurd hc2 (by simp)

def c6m0 : RfsManifest :=
  { version := 1
    origin := { kind := "k", input := .jobj [], cacheKey := none }
    exports := [(".", ".")]
    dependencies := none
    commands := none
    metadata := .jobj []
    createdAt := "t0"
    updatedAt := "t0" }

/-- A command handler that emits one custom payload and then throws. -/
def c6hnd : OnCommandFn := fun fs _ _ _ _ => (fs, [.jstr "p"], .error "boom")

def c6K : Kind :=
  { kind := "k", cacheKey := none, onInit := fun fs _ _ => (fs, [], .ok none),
    onCommand := some c6hnd }

def c6fs0 : FS :=
  [("/", .dir), ("/d", .dir), ("/d/.radium-fs-manifest.json", .file (.mani c6m0))]

def c6st0 : StoreState :=
  { fs := c6fs0, events := [], commandLog := [], customLog := [], initCalls := 0 }

def c6run : StoreState × Except String (List (String × String) × JsVal) :=
  sendCmd c6K c6hnd (mkPath ["d"]) (joinPath [mkPath ["d"], RFS_SPACE_DIRNAME]) "id0"
    (.jstr "boomcmd") "t1" "t2" c6st0

/-- **C6, witness.**  The theorem applied to a throwing handler over a
concrete one-space store. -/
theorem c6_witness :
    c6run.2 = .error "boom" ∧
    c6run.1.fs = (c6hnd c6st0.fs (joinPath [mkPath ["d"], RFS_SPACE_DIRNAME])
      (joinPath [mkPath ["d"], RFS_LOCAL_DIRNAME]) (.jstr "boomcmd")
      (c6m0.exports, c6m0.metadata)).1 ∧
    fsLookup c6run.1.fs (manifestPath (mkPath ["d"])) =
      fsLookup c6st0.fs (manifestPath (mkPath ["d"])) ∧
    c6run.1.events = c6st0.events ++ [RfsEvent.commandStart "k" "id0" (.jstr "boomcmd")] ++
      ((c6hnd c6st0.fs (joinPath [mkPath ["d"], RFS_SPACE_DIRNAME])
        (joinPath [mkPath ["d"], RFS_LOCAL_DIRNAME]) (.jstr "boomcmd")
        (c6m0.exports, c6m0.metadata)).2.1).map (RfsEvent.custom "k" "id0") ++
      [RfsEvent.commandError "k" "id0" (.jstr "boomcmd") "boom"] ∧
    c6run.1.commandLog = c6st0.commandLog ++
      [("id0", RfsEvent.commandStart "k" "id0" (.jstr "boomcmd"))] ++
      [("id0", RfsEvent.commandError "k" "id0" (.jstr "boomcmd") "boom")] :=
  c6_theorem c6K c6hnd ["d"] (by decide) "id0" (.jstr "boomcmd") "t1" "t2"
    c6st0 c6run.1 c6run.2 c6m0 "boom" rfl rfl (fun q _ _ => rfl) rfl


/-! ### Claim C7: the "." export key -/

/-- A Kind whose `onInit` returns an exports map without a `"."` key. -/
def c7K : Kind :=
  { kind := "k", cacheKey := none,
    onInit := fun fs _ _ =>
      (fs, [], .ok (some { exports := some (.map [("x", "y")]), metadata := none })),
    onCommand := none }

def c7st0 : StoreState :=
  { fs := [("/", .dir)], events := [], commandLog := [], customLog := [], initCalls := 0 }

def c7run : StoreState × Except String RfsSpaceBase :=
  storeEnsure "/r" c7K (.jobj []) true "t1" "r1" c7st0

def c7sp : RfsSpaceBase :=
  match c7run.2 with
  | .ok sp => sp
  | .error _ =>
      { dataId := ""
        kind := ""
        origin := { kind := "", input := .jnull, cacheKey := none }
        path := ""
        exports := []
        manifest :=
          { version := 0
            origin := { kind := "", input := .jnull, cacheKey := none }
            exports := []
            dependencies := none
            commands := none
            metadata := .jnull
            createdAt := ""
            updatedAt := "" } }

set_option maxRecDepth 8000 in
set_option maxHeartbeats 2000000 in
/-- **C7, counterexample.**  A successfully built space whose persisted
manifest (read back from disk after the rename into place) carries the
handler's exports map verbatim — `{"x": "y"}` — with no `"."` key:
`normalizeExports` keeps a returned map unchanged instead of inserting
`"."`. -/
theorem c7_claim_false :
    c7run.2 = .ok c7sp ∧
    c7sp.manifest.exports = [("x", "y")] ∧
    c7sp.manifest.exports.lookup "." = none :=
  ⟨rfl, rfl, rfl⟩

/-- **C7.**  (amended)  `normalizeExports` gives the persisted exports
map: absent exports and the empty string (JavaScript-falsy) yield
`{ ".": "." }`, a nonempty string `s` yields `{ ".": s }`, and a returned
map is kept verbatim — so `"."` is guaranteed present exactly when the
handler did not return a map. -/
theorem c7_amended :
    normalizeExports none = [(".", ".")] ∧
    normalizeExports (some (.str "")) = [(".", ".")] ∧
    (∀ s, s ≠ "" → normalizeExports (some (.str s)) = [(".", s)]) ∧
    (∀ mm, normalizeExports (some (.map mm)) = mm) ∧
    (∀ raw, (∀ mm, raw ≠ some (.map mm)) →
      ((normalizeExports raw).lookup ".").isSome = true) := by
  refine ⟨rfl, rfl, ?_, fun mm => rfl, ?_⟩
  · intro s hs
    show (if s = "" then [(".", ".")] else [(".", s)]) = [(".", s)]
    rw [if_neg hs]
  · intro raw hraw
    match raw with
    | none => rfl
    | some (.str s) =>
        show (List.lookup "." (if s = "" then [(".", ".")] else [(".", s)])).isSome = true
        by_cases hs : s = ""
        · rw [if_pos hs]; rfl
        · rw [if_neg hs]; rfl
    | some (.map mm) => exact absurd rfl (hraw mm)

/-- **C7, witness.**  The amended theorem at the string shorthand
`"lib"` and at an absent exports value. -/
theorem c7_witness :
    normalizeExports (some (.str "lib")) = [(".", "lib")] ∧
    ((normalizeExports (some (.str "lib"))).lookup ".").isSome = true :=
  ⟨c7_amended.2.2.1 "lib" (by decide),
   c7_amended.2.2.2.2 (some (.str "lib"))
     (fun mm hmm => RawExports.noConfusion (Option.some.inj hmm))⟩


/-! ### Claim C3: throwing onInit -/

/-! #### Lookup characterizations of the adapter operations -/

theorem fsLookup_cons (k : String) (v : Entry) (fs : FS) (q : String) :
    fsLookup ((k, v) :: fs) q = if k = q then some v else fsLookup fs q := by
  unfold fsLookup
  by_cases h : k = q
  · rw [List.find?_cons_of_pos _ (by simpa using h), if_pos h]
    rfl
  · rw [List.find?_cons_of_neg _ (by simpa using h), if_neg h]

theorem fsLookup_filter_key (fs : FS) (p : String → Bool) (q : String) :
    fsLookup (fs.filter (fun kv => p kv.1)) q =
      if p q = true then fsLookup fs q else none := by
  induction fs with
  | nil => cases hp : p q <;> simp [fsLookup]
  | cons kv rest ih =>
      rcases kv with ⟨k, v⟩
      by_cases hpk : p k = true <;> by_cases hk : k = q
      · subst hk; simp [List.filter_cons, hpk, fsLookup_cons, ih]
      · simp [List.filter_cons, hpk, fsLookup_cons, hk, ih]
      · subst hk; simp [List.filter_cons, hpk, fsLookup_cons, ih]
      · simp [List.filter_cons, hpk, fsLookup_cons, hk, ih]

theorem fsLookup_map_set_ne (fs : FS) (k : String) (v : Entry) (q : String) (hq : q ≠ k) :
    fsLookup (fs.map (fun kv => if kv.1 == k then (k, v) else kv)) q = fsLookup fs q := by
  induction fs with
  | nil => rfl
  | cons kv rest ih =>
      rcases kv with ⟨k1, v1⟩
      rw [List.map_cons]
      by_cases h1 : k1 = k
      · rw [if_pos (by simpa using h1), fsLookup_cons, fsLookup_cons,
          if_neg (fun he => hq he.symm), if_neg (fun he => hq (h1 ▸ he).symm)]
        exact ih
      · rw [if_neg (by simpa using h1), fsLookup_cons, fsLookup_cons]
        by_cases h2 : k1 = q
        · rw [if_pos h2, if_pos h2]
        · rw [if_neg h2, if_neg h2]; exact ih

theorem fsLookup_map_set_self (fs : FS) (k : String) (v : Entry)
    (hany : fs.any (fun kv => kv.1 == k) = true) :
    fsLookup (fs.map (fun kv => if kv.1 == k then (k, v) else kv)) k = some v := by
  induction fs with
  | nil => simp at hany
  | cons kv rest ih =>
      rcases kv with ⟨k1, v1⟩
      rw [List.map_cons]
      by_cases h1 : k1 = k
      · rw [if_pos (by simpa using h1), fsLookup_cons, if_pos rfl]
      · rw [if_neg (by simpa using h1), fsLookup_cons, if_neg h1]
        apply ih
        simp only [List.any_cons, Bool.or_eq_true] at hany
        rcases hany with h | h
        · exact absurd (by simpa using h) h1
        · exact h

theorem fsLookup_eq_none_of_not_any (fs : FS) (k : String)
    (h : fs.any (fun kv => kv.1 == k) = false) : fsLookup fs k = none := by
  induction fs with
  | nil => rfl
  | cons kv rest ih =>
      rcases kv with ⟨k1, v1⟩
      simp only [List.any_cons, Bool.or_eq_false_iff] at h
      rw [fsLookup_cons, if_neg (by simpa using h.1)]
      exact ih h.2

theorem fsLookup_append (fs1 fs2 : FS) (q : String) :
    fsLookup (fs1 ++ fs2) q =
      match fsLookup fs1 q with
      | some e => some e
      | none => fsLookup fs2 q := by
  induction fs1 with
  | nil => rfl
  | cons kv rest ih =>
      rcases kv with ⟨k, v⟩
      rw [List.cons_append, fsLookup_cons, fsLookup_cons]
      by_cases h : k = q
      · rw [if_pos h, if_pos h]
      · rw [if_neg h, if_neg h]; exact ih

theorem fsLookup_fsSet (fs : FS) (k : String) (v : Entry) (q : String) :
    fsLookup (fsSet fs k v) q = if q = k then some v else fsLookup fs q := by
  unfold fsSet
  split
  · next hany =>
      by_cases hq : q = k
      · subst hq; rw [if_pos rfl]; exact fsLookup_map_set_self fs q v hany
      · rw [if_neg hq]; exact fsLookup_map_set_ne fs k v q hq
  · next hany =>
      rw [fsLookup_append]
      by_cases hq : q = k
      · subst hq
        rw [fsLookup_eq_none_of_not_any fs q (by revert hany; cases fs.any (fun kv => kv.1 == q) <;> simp)]
        rw [if_pos rfl, fsLookup_cons, if_pos rfl]
      · rw [if_neg hq]
        cases hl : fsLookup fs q with
        | some e => rfl
        | none => rw [fsLookup_cons, if_neg (fun he => hq he.symm)]; rfl

theorem fsLookup_adapterRemove_under (fs : FS) (p q : String)
    (hq : (q == normalizePath p || jsStartsWith q (normalizePath p ++ "/")) = true) :
    fsLookup (adapterRemove fs p true) q = none := by
  show fsLookup (fs.filter (fun kv =>
    !(kv.1 == normalizePath p || jsStartsWith kv.1 (normalizePath p ++ "/")))) q = none
  rw [fsLookup_filter_key fs
    (fun x => !(x == normalizePath p || jsStartsWith x (normalizePath p ++ "/"))) q]
  rw [hq]
  rfl

theorem fsLookup_adapterRemove_out (fs : FS) (p q : String)
    (hq : (q == normalizePath p || jsStartsWith q (normalizePath p ++ "/")) = false) :
    fsLookup (adapterRemove fs p true) q = fsLookup fs q := by
  show fsLookup (fs.filter (fun kv =>
    !(kv.1 == normalizePath p || jsStartsWith kv.1 (normalizePath p ++ "/")))) q = fsLookup fs q
  rw [fsLookup_filter_key fs
    (fun x => !(x == normalizePath p || jsStartsWith x (normalizePath p ++ "/"))) q]
  rw [hq]
  rfl

theorem mem_accPaths : ∀ (parts : List String) (cur q : String), q ∈ accPaths cur parts →
    ∃ n, n < parts.length ∧ q = foldAcc cur (parts.take (n + 1)) := by
  intro parts
  induction parts with
  | nil => intro cur q h; exact absurd h (by simp [accPaths])
  | cons p rest ih =>
      intro cur q h
      rw [accPaths] at h
      rcases List.mem_cons.mp h with h1 | h1
      · exact ⟨0, by simp, by simpa [foldAcc] using h1⟩
      · obtain ⟨n, hn, hq⟩ := ih (cur ++ "/" ++ p) q h1
        refine ⟨n + 1, by simp; omega, ?_⟩
        rw [hq]
        rfl

theorem fsLookup_addDirChain_notmem : ∀ (parts : List String) (fs : FS) (cur q : String),
    q ∉ accPaths cur parts →
    fsLookup (addDirChain fs cur parts) q = fsLookup fs q := by
  intro parts
  induction parts with
  | nil => intro fs cur q _; rfl
  | cons p rest ih =>
      intro fs cur q hq
      rw [accPaths] at hq
      have hne : q ≠ cur ++ "/" ++ p := fun he => hq (he ▸ List.mem_cons_self _ _)
      have hrest : q ∉ accPaths (cur ++ "/" ++ p) rest := fun hm => hq (List.mem_cons_of_mem _ hm)
      show fsLookup (addDirChain (if (fsLookup fs (cur ++ "/" ++ p)).isSome then fs
        else fsSet fs (cur ++ "/" ++ p) Entry.dir) (cur ++ "/" ++ p) rest) q = fsLookup fs q
      rw [ih _ _ _ hrest]
      split
      · rfl
      · rw [fsLookup_fsSet, if_neg hne]

/-! #### Symlink-free stores -/

/-- The entry is not a symlink. -/
def entrySymFree : Entry → Bool
  | .symlink _ => false
  | _ => true

/-- No entry of the backing map is a symlink. -/
def SymFree (fs : FS) : Prop := fs.all (fun kv => entrySymFree kv.2) = true

instance (fs : FS) : Decidable (SymFree fs) := by unfold SymFree; infer_instance

theorem symFree_lookup {fs : FS} (h : SymFree fs) (q t : String) :
    fsLookup fs q ≠ some (.symlink t) := by
  intro hl
  unfold fsLookup at hl
  cases hf : fs.find? (fun kv => kv.1 == q) with
  | none => rw [hf] at hl; exact Option.noConfusion hl
  | some kv =>
      rw [hf] at hl
      replace hl : some kv.2 = some (Entry.symlink t) := hl
      have hmem := List.mem_of_find?_eq_some hf
      have hall := List.all_eq_true.mp h kv hmem
      rw [Option.some.inj hl] at hall
      exact Bool.noConfusion hall

theorem symFree_filter {fs : FS} (h : SymFree fs) (p : String × Entry → Bool) :
    SymFree (fs.filter p) := by
  rw [SymFree, List.all_eq_true] at *
  exact fun kv hkv => h kv (List.mem_of_mem_filter hkv)

theorem symFree_fsSet {fs : FS} (h : SymFree fs) (k : String) (v : Entry)
    (hv : entrySymFree v = true) : SymFree (fsSet fs k v) := by
  unfold fsSet
  split
  · rw [SymFree, List.all_eq_true] at *
    intro kv hkv
    rcases List.mem_map.mp hkv with ⟨kv0, hkv0, rfl⟩
    split
    · exact hv
    · exact h kv0 hkv0
  · rw [SymFree, List.all_eq_true] at *
    intro kv hkv
    rcases List.mem_append.mp hkv with h1 | h1
    · exact h kv h1
    · rw [List.mem_singleton.mp h1]; exact hv

theorem symFree_addDirChain : ∀ (parts : List String) (fs : FS) (cur : String),
    SymFree fs → SymFree (addDirChain fs cur parts) := by
  intro parts
  induction parts with
  | nil => intro fs cur h; exact h
  | cons p rest ih =>
      intro fs cur h
      show SymFree (addDirChain (if (fsLookup fs (cur ++ "/" ++ p)).isSome then fs
        else fsSet fs (cur ++ "/" ++ p) Entry.dir) (cur ++ "/" ++ p) rest)
      apply ih
      split
      · exact h
      · exact symFree_fsSet h _ _ rfl

theorem symFree_adapterMkdir {fs : FS} (h : SymFree fs) (p : String) :
    SymFree (adapterMkdir fs p) := symFree_addDirChain _ _ _ h

theorem symFree_adapterRemove {fs : FS} (h : SymFree fs) (p : String) (r : Bool) :
    SymFree (adapterRemove fs p r) := by
  unfold adapterRemove
  split
  · exact symFree_filter h _
  · exact symFree_filter h _

/-! #### Resolution over a symlink-free store -/

theorem resolvePath_symFree (fs : FS) (ps : List String) (hwf : WfParts ps)
    (hne : ps ≠ []) (hsf : SymFree fs) :
    resolvePath fs (mkPath ps) = .ok (mkPath ps) := by
  have hsplit : (jsSplit (mkPath ps)).filter (fun s => s != "") = ps := by
    rw [jsSplit_mkPath _ hne (fun s hs => (hwf s hs).2.1)]
    rw [show ("" :: ps).filter (fun s => s != "") = ps.filter (fun s => s != "") by simp]
    exact filter_ne_empty_of_wf _ (fun s hs => (hwf s hs).1)
  have hfold : foldAcc "" ps = mkPath ps := by
    rw [foldAcc_mkPath ps "" hne]
    exact toList_injective (by rw [toList_append]; rfl)
  have hwalk : resolvePathAux fs (ps ++ []) "" = resolvePathAux fs [] (foldAcc "" ps) :=
    resolvePathAux_no_sym fs [] ps "" (fun q _ hsym => by
      rcases hsym with ⟨t, ht⟩
      exact symFree_lookup hsf q t ht)
  rw [List.append_nil] at hwalk
  unfold resolvePath
  rw [hsplit, hwalk, hfold]
  rw [show resolvePathAux fs [] (mkPath ps) = .ok (mkPath ps) from rfl]
  show Except.ok (if mkPath ps = "" then "/" else mkPath ps) = Except.ok (mkPath ps)
  rw [if_neg (mkPath_ne_empty ps)]

theorem adapterExists_symFree (fs : FS) (ps : List String) (hwf : WfParts ps)
    (hne : ps ≠ []) (hsf : SymFree fs) :
    adapterExists fs (mkPath ps) = (fsLookup fs (mkPath ps)).isSome := by
  unfold adapterExists
  rw [normalizePath_mkPath ps hwf, resolvePath_symFree fs ps hwf hne hsf]

/-- `spaceExists` over a symlink-free store is a plain lookup of the
manifest key. -/
theorem spaceExists_symFree (fs : FS) (ds : List String) (hwf : WfParts ds)
    (hsf : SymFree fs) :
    spaceExists fs (mkPath ds) =
      (fsLookup fs (mkPath (ds ++ [RFS_MANIFEST_FILENAME]))).isSome := by
  unfold spaceExists
  rw [manifestPath_mkPath ds (fun s hs => ⟨(hwf s hs).1, (hwf s hs).2.1⟩)]
  exact adapterExists_symFree fs (ds ++ [RFS_MANIFEST_FILENAME])
    (fun s hs => by
      rcases List.mem_append.mp hs with h | h
      · exact hwf s h
      · rw [List.mem_singleton.mp h]; decide)
    (by simp) hsf

/-! #### Path algebra for the identity layout -/

theorem mkPath_snoc (ts : List String) (c : String) (hne : ts ≠ []) :
    mkPath (ts ++ [c]) = mkPath ts ++ "/" ++ c := by
  apply toList_injective
  rw [toList_append, toList_append, toList_mkPath, toList_mkPath]
  rw [show (ts ++ [c]).map String.toList = ts.map String.toList ++ [c.toList] by simp]
  rw [joinCh_append _ _ (by simpa using hne) (by simp)]
  simp [joinCh]

theorem underDir_iff (d q : String) :
    UnderDir d q ↔ (q == d || jsStartsWith q (d ++ "/")) = true := by
  unfold UnderDir
  simp

theorem underDir_child {ts : List String} (c q : String) (hne : ts ≠ [])
    (h : UnderDir (mkPath (ts ++ [c])) q) : UnderDir (mkPath ts) q := by
  rw [mkPath_snoc ts c hne] at h
  right
  rcases h with h | h
  · rw [h]
    exact jsStartsWith_append (mkPath ts ++ "/") c
  · unfold jsStartsWith at *
    rw [List.isPrefixOf_iff_prefix] at *
    refine List.IsPrefix.trans ?_ h
    rw [show mkPath ts ++ "/" ++ c ++ "/" = (mkPath ts ++ "/") ++ (c ++ "/") by
      simp [String.append_assoc]]
    rw [toList_append]
    exact List.prefix_append _ _

theorem buildDataDir_mkPath (rs : List String) (kind dId : String)
    (hrs : ∀ s ∈ rs, s ≠ "" ∧ '/' ∉ s.toList)
    (hk : kind ≠ "" ∧ '/' ∉ kind.toList)
    (hsh : getShard dId ≠ "" ∧ '/' ∉ (getShard dId).toList)
    (hd : dId ≠ "" ∧ '/' ∉ dId.toList) :
    buildDataDir (mkPath rs) kind dId =
      mkPath (rs ++ [RFS_DATA_DIRNAME, kind, getShard dId, dId]) := by
  unfold buildDataDir
  apply joinPath_mkPath rs [RFS_DATA_DIRNAME, kind, getShard dId, dId] hrs
  intro s hs
  simp only [List.mem_cons, List.not_mem_nil, or_false] at hs
  rcases hs with rfl | rfl | rfl | rfl
  · exact (by decide)
  · exact hk
  · exact hsh
  · exact hd

theorem buildTempDir_mkPath (rs : List String) (kind dId rand : String)
    (hrs : ∀ s ∈ rs, s ≠ "" ∧ '/' ∉ s.toList)
    (hk : kind ≠ "" ∧ '/' ∉ kind.toList)
    (hsh : getShard dId ≠ "" ∧ '/' ∉ (getShard dId).toList)
    (htmp : RFS_TEMP_PREFIX ++ dId ++ "-" ++ rand ≠ "" ∧
      '/' ∉ (RFS_TEMP_PREFIX ++ dId ++ "-" ++ rand).toList) :
    buildTempDir (mkPath rs) kind dId rand =
      mkPath (rs ++ [RFS_DATA_DIRNAME, kind, getShard dId,
        RFS_TEMP_PREFIX ++ dId ++ "-" ++ rand]) := by
  unfold buildTempDir
  apply joinPath_mkPath rs _ hrs
  intro s hs
  simp only [List.mem_cons, List.not_mem_nil, or_false] at hs
  rcases hs with rfl | rfl | rfl | rfl
  · exact (by decide)
  · exact hk
  · exact hsh
  · exact htmp

/-- `adapterMkdir` at a well-formed absolute path only creates keys that
are prefix paths of it. -/
theorem fsLookup_adapterMkdir_wf (fs : FS) (X : List String) (hwf : WfParts X)
    (hne : X ≠ []) (q : String)
    (hq : ∀ n, n < X.length → q ≠ mkPath (X.take (n + 1))) :
    fsLookup (adapterMkdir fs (mkPath X)) q = fsLookup fs q := by
  have hsplit : (jsSplit (normalizePath (mkPath X))).filter (fun s => s != "") = X := by
    rw [normalizePath_mkPath X hwf]
    rw [jsSplit_mkPath _ hne (fun s hs => (hwf s hs).2.1)]
    rw [show ("" :: X).filter (fun s => s != "") = X.filter (fun s => s != "") by simp]
    exact filter_ne_empty_of_wf _ (fun s hs => (hwf s hs).1)
  unfold adapterMkdir
  rw [hsplit]
  apply fsLookup_addDirChain_notmem
  intro hmem
  obtain ⟨n, hn, hfold⟩ := mem_accPaths X "" q hmem
  have htne : X.take (n + 1) ≠ [] := by
    have hx : (X.take (n + 1)).length = n + 1 := by
      rw [List.length_take]
      omega
    intro hnil
    rw [hnil] at hx
    simp at hx
  have : q = mkPath (X.take (n + 1)) := by
    rw [hfold, foldAcc_mkPath _ _ htne]
    exact toList_injective (by rw [toList_append]; rfl)
  exact hq n hn this

/-- The origin object a root `ensure` stores in the manifest (and that
`has`/`remove` later recompute the dataId from). -/
def ensureOrigin (K : Kind) (input : JsVal) : RfsOrigin :=
  { kind := K.kind, input := nullishOr input (.jobj []),
    cacheKey := K.cacheKey.map (fun f => f input) }

theorem wfParts_append_singleton {l : List String} {c : String}
    (hl : WfParts l) (hc : WfComp c) : WfParts (l ++ [c]) := by
  intro s hs
  rcases List.mem_append.mp hs with h | h
  · exact hl s h
  · rw [List.mem_singleton.mp h]; exact hc

/-- Two well-formed absolute paths with the same component count and
different last components differ from every prefix path of one another. -/
theorem mkPath_ne_take_of_last {as bs : List String} {a b : String}
    (hwa : ∀ s ∈ as ++ [a], s ≠ "" ∧ '/' ∉ s.toList)
    (hwb : ∀ s ∈ bs ++ [b], s ≠ "" ∧ '/' ∉ s.toList)
    (hlen : (as ++ [a]).length = (bs ++ [b]).length)
    (hab : a ≠ b) :
    ∀ n, n < (bs ++ [b]).length → mkPath (as ++ [a]) ≠ mkPath ((bs ++ [b]).take (n + 1)) := by
  intro n hn heq
  have hparts := mkPath_injective hwa (fun s hs => hwb s (List.mem_of_mem_take hs)) heq
  have hl := congrArg List.length hparts
  rw [List.length_take] at hl
  have hfull : n + 1 = (bs ++ [b]).length := by omega
  rw [hfull, List.take_length] at hparts
  have hlast := congrArg (fun l => l.getLast?) hparts
  simp only [List.getLast?_concat] at hlast
  exact hab (Option.some.inj hlast)

section ThrowProofs

attribute [local irreducible] computeDataId buildDataDir buildTempDir joinPath
  normalizePath manifestPath readManifest writeManifest spaceExists adapterReadFile
  adapterExists resolvePath adapterRemove adapterMkdir adapterRename ensureParentDirs
  jsSplit jsJoin mkPath splitCh joinCh nullishOr getShard normalizeExports
  resolveAbsoluteExports

set_option maxHeartbeats 1000000 in
/-- **C3.**  A fresh root `ensure` of a Kind whose `onInit` throws:
the error is re-raised, the global events are `init:start`, the
handler's own custom payloads, then `init:error` carrying the original
error, the temp directory no longer exists, and `has` of the stored
origin is `false` afterwards.  The handler is assumed to throw on every
call, to confine its writes to the temp `space/` and `local/`
directories, and to create no symlinks; the store starts symlink-free
and holds no space for the derived identity. -/
theorem c3_theorem (rs : List String) (K : Kind) (input : JsVal)
    (now rand e : String) (st0 st1 : StoreState) (res : Except String RfsSpaceBase)
    (dId dId' : String)
    (hdid : dId = computeDataId K.kind (nullishOr input (.jobj [])) K.cacheKey)
    (hdid' : dId' = computeDataId K.kind (nullishOr input (.jobj []))
      (origCacheKeyFn (ensureOrigin K input)))
    (hwroot : WfParts rs)
    (hwfk : WfComp K.kind)
    (hwfsh : WfComp (getShard dId))
    (hwftmp : WfComp (RFS_TEMP_PREFIX ++ dId ++ "-" ++ rand))
    (hwfd' : WfComp dId') (hwfsh' : WfComp (getShard dId'))
    (hsf : SymFree st0.fs)
    (hfresh : spaceExists st0.fs (buildDataDir (mkPath rs) K.kind dId) = false)
    (hfresh' : storeHas (mkPath rs) (ensureOrigin K input) st0 = false)
    (hthrow : ∀ fs sp lc, (K.onInit fs sp lc).2.2 = .error e)
    (hconf : ∀ fs sp lc q, ¬ UnderDir sp q → ¬ UnderDir lc q →
      fsLookup ((K.onInit fs sp lc).1) q = fsLookup fs q)
    (hsfh : ∀ fs sp lc, SymFree fs → SymFree (K.onInit fs sp lc).1)
    (h : storeEnsure (mkPath rs) K input true now rand st0 = (st1, res)) :
    res = .error e ∧
    (∃ payloads : List JsVal,
      st1.events = st0.events ++
        [RfsEvent.initStart K.kind dId (nullishOr input (.jobj []))] ++
        payloads.map (RfsEvent.custom K.kind dId) ++
        [RfsEvent.initError K.kind dId (nullishOr input (.jobj [])) e]) ∧
    adapterExists st1.fs (buildTempDir (mkPath rs) K.kind dId rand) = false ∧
    storeHas (mkPath rs) (ensureOrigin K input) st1 = false := by
  have hwrs : ∀ s ∈ rs, s ≠ "" ∧ '/' ∉ s.toList :=
    fun s hs => ⟨(hwroot s hs).1, (hwroot s hs).2.1⟩
  have hk2 : K.kind ≠ "" ∧ '/' ∉ K.kind.toList := ⟨hwfk.1, hwfk.2.1⟩
  have hsh2 : getShard dId ≠ "" ∧ '/' ∉ (getShard dId).toList := ⟨hwfsh.1, hwfsh.2.1⟩
  have htmp2 : RFS_TEMP_PREFIX ++ dId ++ "-" ++ rand ≠ "" ∧
      '/' ∉ (RFS_TEMP_PREFIX ++ dId ++ "-" ++ rand).toList := ⟨hwftmp.1, hwftmp.2.1⟩
  have hsh2' : getShard dId' ≠ "" ∧ '/' ∉ (getShard dId').toList := ⟨hwfsh'.1, hwfsh'.2.1⟩
  have hd2' : dId' ≠ "" ∧ '/' ∉ dId'.toList := ⟨hwfd'.1, hwfd'.2.1⟩
  have hwts : WfParts (rs ++ [RFS_DATA_DIRNAME, K.kind, getShard dId, RFS_TEMP_PREFIX ++ dId ++ "-" ++ rand]) := by
    intro s hs
    rcases List.mem_append.mp hs with h1 | h1
    · exact hwroot s h1
    · simp only [List.mem_cons, List.not_mem_nil, or_false] at h1
      rcases h1 with rfl | rfl | rfl | rfl
      · decide
      · exact hwfk
      · exact hwfsh
      · exact hwftmp
  have hwds' : WfParts (rs ++ [RFS_DATA_DIRNAME, K.kind, getShard dId', dId']) := by
    intro s hs
    rcases List.mem_append.mp hs with h1 | h1
    · exact hwroot s h1
    · simp only [List.mem_cons, List.not_mem_nil, or_false] at h1
      rcases h1 with rfl | rfl | rfl | rfl
      · decide
      · exact hwfk
      · exact hwfsh'
      · exact hwfd'
  have htsne : (rs ++ [RFS_DATA_DIRNAME, K.kind, getShard dId, RFS_TEMP_PREFIX ++ dId ++ "-" ++ rand]) ≠ [] := by simp
  have htd : buildTempDir (mkPath rs) K.kind dId rand = mkPath (rs ++ [RFS_DATA_DIRNAME, K.kind, getShard dId, RFS_TEMP_PREFIX ++ dId ++ "-" ++ rand]) :=
    buildTempDir_mkPath rs K.kind dId rand hwrs hk2 hsh2 htmp2
  have hdd' : buildDataDir (mkPath rs) K.kind dId' = mkPath (rs ++ [RFS_DATA_DIRNAME, K.kind, getShard dId', dId']) :=
    buildDataDir_mkPath rs K.kind dId' hwrs hk2 hsh2' hd2'
  have hsp' : joinPath [mkPath (rs ++ [RFS_DATA_DIRNAME, K.kind, getShard dId, RFS_TEMP_PREFIX ++ dId ++ "-" ++ rand]), RFS_SPACE_DIRNAME] = mkPath ((rs ++ [RFS_DATA_DIRNAME, K.kind, getShard dId, RFS_TEMP_PREFIX ++ dId ++ "-" ++ rand]) ++ [RFS_SPACE_DIRNAME]) :=
    joinPath_mkPath _ [RFS_SPACE_DIRNAME]
      (fun s hs => ⟨(hwts s hs).1, (hwts s hs).2.1⟩) (by decide)
  have hlc' : joinPath [mkPath (rs ++ [RFS_DATA_DIRNAME, K.kind, getShard dId, RFS_TEMP_PREFIX ++ dId ++ "-" ++ rand]), RFS_LOCAL_DIRNAME] = mkPath ((rs ++ [RFS_DATA_DIRNAME, K.kind, getShard dId, RFS_TEMP_PREFIX ++ dId ++ "-" ++ rand]) ++ [RFS_LOCAL_DIRNAME]) :=
    joinPath_mkPath _ [RFS_LOCAL_DIRNAME]
      (fun s hs => ⟨(hwts s hs).1, (hwts s hs).2.1⟩) (by decide)
  have hok : (ensureOrigin K input).kind = K.kind := rfl
  have hoi : (ensureOrigin K input).input = nullishOr input (.jobj []) := rfl
  simp only [storeEnsure, ensureInternal] at h
  rw [← hdid] at h
  rw [hfresh] at h
  simp only [Bool.false_and, Bool.not_true, Bool.and_false, Bool.false_eq_true, if_false] at h
  simp only [ensureBuild] at h
  split at h
  · next e2 hres =>
      rw [hthrow] at hres
      replace hres : e = e2 := Except.error.inj hres
      subst hres
      simp only [Prod.mk.injEq] at h
      obtain ⟨hst, hres2⟩ := h
      subst hst
      rw [htd]
      rw [hsp', hlc']
      have hsfB : SymFree ((K.onInit (adapterMkdir (adapterMkdir st0.fs (mkPath ((rs ++ [RFS_DATA_DIRNAME, K.kind, getShard dId, RFS_TEMP_PREFIX ++ dId ++ "-" ++ rand]) ++ [RFS_SPACE_DIRNAME]))) (mkPath ((rs ++ [RFS_DATA_DIRNAME, K.kind, getShard dId, RFS_TEMP_PREFIX ++ dId ++ "-" ++ rand]) ++ [RFS_LOCAL_DIRNAME]))) (mkPath ((rs ++ [RFS_DATA_DIRNAME, K.kind, getShard dId, RFS_TEMP_PREFIX ++ dId ++ "-" ++ rand]) ++ [RFS_SPACE_DIRNAME])) (mkPath ((rs ++ [RFS_DATA_DIRNAME, K.kind, getShard dId, RFS_TEMP_PREFIX ++ dId ++ "-" ++ rand]) ++ [RFS_LOCAL_DIRNAME]))).1) :=
        hsfh _ _ _ (symFree_adapterMkdir (symFree_adapterMkdir hsf _) _)
      refine ⟨hres2.symm, ?_, ?_, ?_⟩
      · refine ⟨(K.onInit (adapterMkdir (adapterMkdir st0.fs
            (mkPath ((rs ++ [RFS_DATA_DIRNAME, K.kind, getShard dId, RFS_TEMP_PREFIX ++ dId ++ "-" ++ rand]) ++ [RFS_SPACE_DIRNAME])))
            (mkPath ((rs ++ [RFS_DATA_DIRNAME, K.kind, getShard dId, RFS_TEMP_PREFIX ++ dId ++ "-" ++ rand]) ++ [RFS_LOCAL_DIRNAME])))
            (mkPath ((rs ++ [RFS_DATA_DIRNAME, K.kind, getShard dId, RFS_TEMP_PREFIX ++ dId ++ "-" ++ rand]) ++ [RFS_SPACE_DIRNAME]))
            (mkPath ((rs ++ [RFS_DATA_DIRNAME, K.kind, getShard dId, RFS_TEMP_PREFIX ++ dId ++ "-" ++ rand]) ++ [RFS_LOCAL_DIRNAME]))).2.1, ?_⟩
        simp [initFail, List.append_assoc]
      · simp only [initFail]
        rw [adapterExists_symFree _ _ hwts htsne (symFree_adapterRemove hsfB _ _)]
        rw [fsLookup_adapterRemove_under _ _ _
          (by rw [normalizePath_mkPath _ hwts]; simp)]
        rfl
      · simp only [storeHas, initFail]
        rw [hok, hoi, ← hdid', hdd']
        rw [spaceExists_symFree _ _ hwds' (symFree_adapterRemove hsfB _ _)]
        by_cases hu : (mkPath ((rs ++ [RFS_DATA_DIRNAME, K.kind, getShard dId', dId']) ++ [RFS_MANIFEST_FILENAME]) == normalizePath (mkPath (rs ++ [RFS_DATA_DIRNAME, K.kind, getShard dId, RFS_TEMP_PREFIX ++ dId ++ "-" ++ rand])) ||
            jsStartsWith (mkPath ((rs ++ [RFS_DATA_DIRNAME, K.kind, getShard dId', dId']) ++ [RFS_MANIFEST_FILENAME])) (normalizePath (mkPath (rs ++ [RFS_DATA_DIRNAME, K.kind, getShard dId, RFS_TEMP_PREFIX ++ dId ++ "-" ++ rand])) ++ "/")) = true
        · rw [fsLookup_adapterRemove_under _ _ _ hu]
          rfl
        · have hu2 : (mkPath ((rs ++ [RFS_DATA_DIRNAME, K.kind, getShard dId', dId']) ++ [RFS_MANIFEST_FILENAME]) == normalizePath (mkPath (rs ++ [RFS_DATA_DIRNAME, K.kind, getShard dId, RFS_TEMP_PREFIX ++ dId ++ "-" ++ rand])) ||
              jsStartsWith (mkPath ((rs ++ [RFS_DATA_DIRNAME, K.kind, getShard dId', dId']) ++ [RFS_MANIFEST_FILENAME])) (normalizePath (mkPath (rs ++ [RFS_DATA_DIRNAME, K.kind, getShard dId, RFS_TEMP_PREFIX ++ dId ++ "-" ++ rand])) ++ "/")) = false :=
            Bool.eq_false_iff.mpr hu
          rw [fsLookup_adapterRemove_out _ _ _ hu2]
          rw [normalizePath_mkPath _ hwts] at hu2
          have hnotu : ¬ UnderDir (mkPath (rs ++ [RFS_DATA_DIRNAME, K.kind, getShard dId, RFS_TEMP_PREFIX ++ dId ++ "-" ++ rand])) (mkPath ((rs ++ [RFS_DATA_DIRNAME, K.kind, getShard dId', dId']) ++ [RFS_MANIFEST_FILENAME])) := by
            intro hU
            rw [underDir_iff] at hU
            rw [hu2] at hU
            exact Bool.noConfusion hU
          have hnsp : ¬ UnderDir (mkPath ((rs ++ [RFS_DATA_DIRNAME, K.kind, getShard dId, RFS_TEMP_PREFIX ++ dId ++ "-" ++ rand]) ++ [RFS_SPACE_DIRNAME])) (mkPath ((rs ++ [RFS_DATA_DIRNAME, K.kind, getShard dId', dId']) ++ [RFS_MANIFEST_FILENAME])) :=
            fun hU => hnotu (underDir_child _ _ htsne hU)
          have hnlc : ¬ UnderDir (mkPath ((rs ++ [RFS_DATA_DIRNAME, K.kind, getShard dId, RFS_TEMP_PREFIX ++ dId ++ "-" ++ rand]) ++ [RFS_LOCAL_DIRNAME])) (mkPath ((rs ++ [RFS_DATA_DIRNAME, K.kind, getShard dId', dId']) ++ [RFS_MANIFEST_FILENAME])) :=
            fun hU => hnotu (underDir_child _ _ htsne hU)
          rw [hconf _ _ _ _ hnsp hnlc]
          have hwmk : ∀ s ∈ (rs ++ [RFS_DATA_DIRNAME, K.kind, getShard dId', dId']) ++ [RFS_MANIFEST_FILENAME], s ≠ "" ∧ '/' ∉ s.toList :=
            fun s hs => by
              have := wfParts_append_singleton hwds' (by decide : WfComp RFS_MANIFEST_FILENAME) s hs
              exact ⟨this.1, this.2.1⟩
          rw [fsLookup_adapterMkdir_wf _ ((rs ++ [RFS_DATA_DIRNAME, K.kind, getShard dId, RFS_TEMP_PREFIX ++ dId ++ "-" ++ rand]) ++ [RFS_LOCAL_DIRNAME])
            (wfParts_append_singleton hwts (by decide)) (by simp) _
            (mkPath_ne_take_of_last hwmk
              (fun s hs => by
                have := wfParts_append_singleton hwts (by decide : WfComp RFS_LOCAL_DIRNAME) s hs
                exact ⟨this.1, this.2.1⟩)
              (by simp) (by decide))]
          rw [fsLookup_adapterMkdir_wf _ ((rs ++ [RFS_DATA_DIRNAME, K.kind, getShard dId, RFS_TEMP_PREFIX ++ dId ++ "-" ++ rand]) ++ [RFS_SPACE_DIRNAME])
            (wfParts_append_singleton hwts (by decide)) (by simp) _
            (mkPath_ne_take_of_last hwmk
              (fun s hs => by
                have := wfParts_append_singleton hwts (by decide : WfComp RFS_SPACE_DIRNAME) s hs
                exact ⟨this.1, this.2.1⟩)
              (by simp) (by decide))]
          have hfr : spaceExists st0.fs (buildDataDir (mkPath rs) K.kind dId') = false := by
            have hx := hfresh'
            simp only [storeHas] at hx
            rw [hok, hoi, ← hdid'] at hx
            exact hx
          rw [hdd', spaceExists_symFree _ _ hwds' hsf] at hfr
          exact hfr
  · next result hres =>
      rw [hthrow] at hres
      exact absurd hres (by simp)

end ThrowProofs

/-- A Kind whose `onInit` always throws after emitting one custom
payload. -/
def c3K : Kind :=
  { kind := "k", cacheKey := none,
    onInit := fun fs _ _ => (fs, [.jstr "w"], .error "boom"),
    onCommand := none }

def c3st0 : StoreState :=
  { fs := [("/", .dir)], events := [], commandLog := [], customLog := [], initCalls := 0 }

def c3run : StoreState × Except String RfsSpaceBase :=
  storeEnsure (mkPath ["r"]) c3K (.jobj []) true "t1" "r1" c3st0

set_option maxRecDepth 10000 in
set_option maxHeartbeats 4000000 in
/-- **C3, witness.**  The theorem applied to a concrete always-throwing
Kind over a one-directory store. -/
theorem c3_witness :
    c3run.2 = .error "boom" ∧
    (∃ payloads : List JsVal,
      c3run.1.events = c3st0.events ++
        [RfsEvent.initStart c3K.kind (computeDataId c3K.kind (nullishOr (.jobj []) (.jobj [])) c3K.cacheKey) (nullishOr (.jobj []) (.jobj []))] ++
        payloads.map (RfsEvent.custom c3K.kind (computeDataId c3K.kind (nullishOr (.jobj []) (.jobj [])) c3K.cacheKey)) ++
        [RfsEvent.initError c3K.kind (computeDataId c3K.kind (nullishOr (.jobj []) (.jobj [])) c3K.cacheKey) (nullishOr (.jobj []) (.jobj [])) "boom"]) ∧
    adapterExists c3run.1.fs (buildTempDir (mkPath ["r"]) c3K.kind (computeDataId c3K.kind (nullishOr (.jobj []) (.jobj [])) c3K.cacheKey) "r1") = false ∧
    storeHas (mkPath ["r"]) (ensureOrigin c3K (.jobj [])) c3run.1 = false :=
  c3_theorem ["r"] c3K (.jobj []) "t1" "r1" "boom" c3st0 c3run.1 c3run.2
    (computeDataId c3K.kind (nullishOr (.jobj []) (.jobj [])) c3K.cacheKey)
    (computeDataId c3K.kind (nullishOr (.jobj []) (.jobj [])) (origCacheKeyFn (ensureOrigin c3K (.jobj []))))
    rfl rfl (by decide) (by decide) (by decide) (by decide) (by decide) (by decide)
    (by decide) (by decide) (by decide)
    (fun fs sp lc => rfl) (fun fs sp lc q _ _ => rfl) (fun fs sp lc hs => hs) rfl

end RadiumFs
